import Mathlib

/-!
Verification of the wikitext extraction / entity-resolution engine
(`extractor.py`): a shallow embedding of its string-processing functions
over `List Char`, with theorems about sections, cleaning, infobox parsing,
page-type classification and entity resolution.

Python strings are modelled as `List Char`; `re` substitutions and
searches are modelled by explicit scanners implementing the backtracking
semantics of the concrete patterns appearing in the source.
-/

namespace Extractor

abbrev Chars := List Char

/-- Python `str.isspace` / regex `\s` for the ASCII range. -/
def pyIsSpace (c : Char) : Bool :=
  c = ' ' || c = '\t' || c = '\n' || c = '\r' || c = '\x0b' || c = '\x0c'

/-- Regex `\w` (ASCII): letters, digits, underscore. -/
def isWordChar (c : Char) : Bool := c.isAlphanum || c = '_'

def lowerL (l : Chars) : Chars := l.map Char.toLower

def upperL (l : Chars) : Chars := l.map Char.toUpper

/-- Python `str.lstrip()`. -/
def pyLStrip (l : Chars) : Chars := l.dropWhile pyIsSpace

/-- Python `str.rstrip()`. -/
def pyRStrip (l : Chars) : Chars := (l.reverse.dropWhile pyIsSpace).reverse

/-- Python `str.strip()`. -/
def pyStrip (l : Chars) : Chars := pyRStrip (pyLStrip l)

/-- Python `str.strip(chars)` for an explicit character set. -/
def pyStripChars (set : Chars) (l : Chars) : Chars :=
  ((l.dropWhile (fun c => set.contains c)).reverse.dropWhile
    (fun c => set.contains c)).reverse

/-- `re.sub(r"\s+", " ", s)`: collapse every whitespace run to one space.
The boolean records whether the previous character was part of a
whitespace run whose single replacement space was already emitted. -/
def collapseWsGo : Bool → Chars → Chars
  | _, [] => []
  | prevWs, c :: rest =>
    if pyIsSpace c then
      if prevWs then collapseWsGo true rest
      else ' ' :: collapseWsGo true rest
    else c :: collapseWsGo false rest

def collapseWs (l : Chars) : Chars := collapseWsGo false l

/-- `normalize_title`: strip, collapse whitespace, lowercase. -/
def normalize_title (l : Chars) : Chars := lowerL (collapseWs (pyStrip l))

/-- Whether the regex `\s*\([^)]+\)\s*$` matches starting exactly at the
head of `r` (the remainder of the string), i.e. `r` is an optional
whitespace run, `(`, one or more non-`)` characters, `)`, then only
whitespace to the end of the string. -/
def parenTailAt (r : Chars) : Bool :=
  let w := (r.takeWhile pyIsSpace).length
  match r.drop w with
  | '(' :: rest2 =>
    let t := (rest2.takeWhile (fun c => c ≠ ')')).length
    if t = 0 then false
    else
      match rest2.drop t with
      | ')' :: rest3 => rest3.all pyIsSpace
      | _ => false
  | _ => false

/-- `re.sub(r'\s*\([^)]+\)\s*$', '', s)`: delete the leftmost match,
which necessarily extends to the end of the string. -/
def removeTrailingParen : Chars → Chars
  | [] => []
  | c :: rest =>
    if parenTailAt (c :: rest) then [] else c :: removeTrailingParen rest

/-- `normalize_title_variants`: full normalized title, then (when it
differs) the normalized title with the trailing parenthetical qualifier
stripped. -/
def normalize_title_variants (l : Chars) : List Chars :=
  let normFull := normalize_title l
  let withoutClarifier := removeTrailingParen l
  if withoutClarifier ≠ l then
    let normWithout := normalize_title withoutClarifier
    if normWithout ≠ normFull then [normFull, normWithout] else [normFull]
  else [normFull]

/-- `US_STATE_CODES`: two-letter state code → full state name. -/
def US_STATE_CODES : List (String × String) :=
  [("AL", "Alabama"), ("AK", "Alaska"), ("AZ", "Arizona"), ("AR", "Arkansas"),
   ("CA", "California"), ("CO", "Colorado"), ("CT", "Connecticut"), ("DE", "Delaware"),
   ("FL", "Florida"), ("GA", "Georgia"), ("HI", "Hawaii"), ("ID", "Idaho"),
   ("IL", "Illinois"), ("IN", "Indiana"), ("IA", "Iowa"), ("KS", "Kansas"),
   ("KY", "Kentucky"), ("LA", "Louisiana"), ("ME", "Maine"), ("MD", "Maryland"),
   ("MA", "Massachusetts"), ("MI", "Michigan"), ("MN", "Minnesota"), ("MS", "Mississippi"),
   ("MO", "Missouri"), ("MT", "Montana"), ("NE", "Nebraska"), ("NV", "Nevada"),
   ("NH", "New Hampshire"), ("NJ", "New Jersey"), ("NM", "New Mexico"), ("NY", "New York"),
   ("NC", "North Carolina"), ("ND", "North Dakota"), ("OH", "Ohio"), ("OK", "Oklahoma"),
   ("OR", "Oregon"), ("PA", "Pennsylvania"), ("RI", "Rhode Island"), ("SC", "South Carolina"),
   ("SD", "South Dakota"), ("TN", "Tennessee"), ("TX", "Texas"), ("UT", "Utah"),
   ("VT", "Vermont"), ("VA", "Virginia"), ("WA", "Washington"), ("WV", "West Virginia"),
   ("WI", "Wisconsin"), ("WY", "Wyoming"), ("DC", "Washington, D.C.")]

/-- `normalize_entity(entity_value, entity_type, country)`.  The
`country` argument models Python's default `None` with `Option`; the
truthiness test `country and country.upper() == "USA"` is captured by
the `upperL c` comparison (an empty string never equals `"USA"`). -/
def normalize_entity (v : Chars) (ty : String) (country : Option Chars) : Chars :=
  if ty = "country" && upperL v = "USA".data then
    normalize_title "United States".data
  else
    match country with
    | some c =>
      if ty = "city" && upperL c = "USA".data then
        let stateCode := upperL (pyStrip v)
        match US_STATE_CODES.find? (fun p => p.1.data = stateCode) with
        | some p => normalize_title p.2.data
        | none => normalize_title v
      else normalize_title v
    | none => normalize_title v

/-! ### Page-type classification (`detect_page_type`) -/

/-- Length of the leading whitespace run (regex `\s*`). -/
def wsRunLen (r : Chars) : Nat := (r.takeWhile pyIsSpace).length

/-- At the current scan position inside the `[^\]]*` span (whose previous
character is `prev`), does `\b(alt1|alt2|…)\b` match?  Every alternative
starts and ends with a word character, so the boundaries reduce to the
neighbouring characters being non-word. -/
def catAltHere (alts : List Chars) (prev : Char) (r : Chars) : Bool :=
  !isWordChar prev &&
    alts.any (fun alt =>
      alt.isPrefixOf r &&
        (match r.drop alt.length with
         | [] => true
         | c :: _ => !isWordChar c))

/-- Scan the `[^\]]*` span: at each position try the alternation, else
advance while the current character is not `]`. -/
def catScanRun (alts : List Chars) (prev : Char) : Chars → Bool
  | [] => catAltHere alts prev []
  | c :: rest =>
    catAltHere alts prev (c :: rest) ||
      (c ≠ ']' && catScanRun alts c rest)

/-- `re.search(r"\[\[Category:[^\]]*\b(…)\b", text, re.IGNORECASE)` on the
pre-lowercased text. -/
def catSearch (alts : List Chars) : Chars → Bool
  | [] => false
  | c :: rest =>
    ("[[category:".data.isPrefixOf (c :: rest) &&
        catScanRun alts ':' ((c :: rest).drop 11)) ||
      catSearch alts rest

/-- `re.search(r"{{Infobox\s+(…)", text, re.IGNORECASE)` on the
pre-lowercased text: the alternatives all start with a letter, so `\s+`
necessarily consumes the whole whitespace run. -/
def infoboxSearch (alts : List Chars) : Chars → Bool
  | [] => false
  | c :: rest =>
    (("\x7b\x7binfobox".data.isPrefixOf (c :: rest)) &&
        (let r2 := (c :: rest).drop 9
         let w := wsRunLen r2
         decide (1 ≤ w) && alts.any (fun alt => alt.isPrefixOf (r2.drop w)))) ||
      infoboxSearch alts rest

def b2n (b : Bool) : Nat := if b then 1 else 0

def artistScore (lt : Chars) : Nat :=
  b2n (catSearch ["musicians".data, "singers".data, "bands".data, "rappers".data,
      "musical groups".data, "music artists".data] lt) +
  b2n (infoboxSearch ["musical artist".data, "band".data, "musician".data,
      "singer".data] lt) +
  b2n (catSearch ["rock bands".data, "pop singers".data, "hip hop".data,
      "jazz".data, "classical music".data] lt)

def venueScore (lt : Chars) : Nat :=
  b2n (catSearch ["music venues".data, "concert halls".data, "stadiums".data,
      "arenas".data, "amphitheatres".data] lt) +
  b2n (infoboxSearch ["venue".data, "stadium".data, "arena".data] lt) +
  b2n (catSearch ["buildings and structures".data, "entertainment venues".data] lt)

def cityScore (lt : Chars) : Nat :=
  b2n (catSearch ["cities".data, "towns".data, "municipalities".data,
      "populated places".data] lt) +
  b2n (infoboxSearch ["settlement".data, "city".data, "town".data] lt) +
  b2n (catSearch ["capitals".data, "county seats".data] lt)

def countryScore (lt : Chars) : Nat :=
  b2n (catSearch ["countries".data, "sovereign states".data,
      "member states".data] lt) +
  b2n (infoboxSearch ["country".data] lt)

/-- The four signal scores (country, city, venue, artist), in the
insertion order of the Python `scores` dict. -/
def pageScores (text : Chars) : Nat × Nat × Nat × Nat :=
  let lt := lowerL text
  (countryScore lt, cityScore lt, venueScore lt, artistScore lt)

/-- Python `max(scores, key=scores.get)`: fold over the remaining items in
insertion order, replacing the current best only on a strictly greater
score — the first maximal key wins. -/
def pickMaxKey (pairs : List (String × Nat)) (best : String × Nat) : String × Nat :=
  pairs.foldl (fun b p => if p.2 > b.2 then p else b) best

def detectFromScores (sc sci sv sa : Nat) : Option String :=
  let maxScore := max (max sc sci) (max sv sa)
  if maxScore > 0 then
    some ((pickMaxKey [("city", sci), ("venue", sv), ("artist", sa)] ("country", sc)).1)
  else none

/-- `detect_page_type`. -/
def detect_page_type (text : Chars) : Option String :=
  let s := pageScores text
  detectFromScores s.1 s.2.1 s.2.2.1 s.2.2.2

/-! ### The heading pattern `(={2,6})\s*([^=\n]+?)\s*\1`

Backtracking order of the Python engine: the `\s*` before the title is
greedy (longest first), the title `[^=\n]+?` lazy (shortest first), the
`\s*` before the backreference greedy again.  The opening `={2,6}` must
consume its whole `=` run (a shorter choice leaves `=` in front of the
title, which `[^=\n]+` rejects), so runs longer than 6 fail. -/

def quot : Char := Char.ofNat 34

def apos : Char := Char.ofNat 39

def eqRunLen (r : Chars) : Nat := (r.takeWhile (fun c => c = '=')).length

/-- Greedy `\s*\1` at `r` for level `L`: try the whitespace length from
`s2` downward until `L` copies of `=` follow. -/
def tryClose (L : Nat) (r : Chars) : Nat → Option Nat
  | 0 => if (List.replicate L '=').isPrefixOf r then some 0 else none
  | s + 1 =>
    if (List.replicate L '=').isPrefixOf (r.drop (s + 1)) then some (s + 1)
    else tryClose L r s

/-- Lazy title: try lengths `tl, tl+1, …` (at most `fuel` attempts); for
each, close greedily. Returns `(titleLen, s2)`. -/
def tryTitleGo (L : Nat) (r : Chars) : Nat → Nat → Option (Nat × Nat)
  | 0, _ => none
  | fuel + 1, tl =>
    let r3 := r.drop tl
    match tryClose L r3 (wsRunLen r3) with
    | some s2 => some (tl, s2)
    | none => tryTitleGo L r fuel (tl + 1)

/-- Greedy leading `\s*`: try `s1` downward; for each, run the lazy title
search.  Returns `(s1, titleLen, s2)`. -/
def tryS1Go (L : Nat) (rest1 : Chars) : Nat → Option (Nat × Nat × Nat)
  | 0 =>
    let tmax := (rest1.takeWhile (fun c => c ≠ '=' && c ≠ '\n')).length
    (tryTitleGo L rest1 tmax 1).map (fun p => (0, p.1, p.2))
  | s + 1 =>
    let r2 := rest1.drop (s + 1)
    let tmax := (r2.takeWhile (fun c => c ≠ '=' && c ≠ '\n')).length
    match (tryTitleGo L r2 tmax 1).map (fun p => (s + 1, p.1, p.2)) with
    | some x => some x
    | none => tryS1Go L rest1 s

/-- Match `(={2,6})\s*([^=\n]+?)\s*\1` at the head of `r`.  Returns
`(matched length, level, title group)`. -/
def matchCore (r : Chars) : Option (Nat × Nat × Chars) :=
  let L := eqRunLen r
  if 2 ≤ L && L ≤ 6 then
    let rest1 := r.drop L
    match tryS1Go L rest1 (wsRunLen rest1) with
    | some (s1, tl, s2) => some (L + s1 + tl + s2 + L, L, (rest1.drop s1).take tl)
    | none => none
  else none

/-! ### `clean_wikitext` passes -/

/-- Model of Python `html.unescape` restricted to a table of common named
entities; sufficient because every input considered below is free of
`&`. -/
def entityTable : List (Chars × Char) :=
  [("amp;".data, '&'), ("lt;".data, '<'), ("gt;".data, '>'),
   ("quot;".data, quot), ("apos;".data, apos), ("nbsp;".data, Char.ofNat 160)]

def htmlUnescapeGo : Nat → Chars → Chars
  | 0, r => r
  | _ + 1, [] => []
  | f + 1, '&' :: rest =>
    match entityTable.find? (fun p => p.1.isPrefixOf rest) with
    | some p => p.2 :: htmlUnescapeGo f (rest.drop p.1.length)
    | none => '&' :: htmlUnescapeGo f rest
  | f + 1, c :: rest => c :: htmlUnescapeGo f rest

def htmlUnescape (l : Chars) : Chars := htmlUnescapeGo (l.length + 1) l

/-- `re.sub(r"(?:^|\n)(={2,6})\s*([^=\n]+?)\s*\1", "\n" + title.strip() + "\n")`
with MULTILINE: the boolean tracks whether the current position is at a
line start (for the `^` alternative); after a match the previous
character is always `=`, so the flag resets to `false`. -/
def headingsToPlainGo : Nat → Bool → Chars → Chars
  | 0, _, r => r
  | _ + 1, _, [] => []
  | f + 1, atLS, c :: rest =>
    match (if atLS then matchCore (c :: rest) else none) with
    | some (len, _, title) =>
      '\n' :: (pyStrip title ++ '\n' :: headingsToPlainGo f false ((c :: rest).drop len))
    | none =>
      if c = '\n' then
        match matchCore rest with
        | some (len, _, title) =>
          '\n' :: (pyStrip title ++ '\n' :: headingsToPlainGo f false (rest.drop len))
        | none => '\n' :: headingsToPlainGo f true rest
      else c :: headingsToPlainGo f false rest

def headingsToPlain (l : Chars) : Chars := headingsToPlainGo (l.length + 1) true l

/-- Case-insensitive prefix test against a lowercase pattern. -/
def ciIsPrefix (pat : Chars) (r : Chars) : Bool := lowerL (r.take pat.length) = pat

/-- Drop through the first case-insensitive occurrence of `pat`,
returning the suffix after it (the lazy `.*?pat`). -/
def dropThroughCi (pat : Chars) : Chars → Option Chars
  | [] => none
  | c :: rest =>
    if ciIsPrefix pat (c :: rest) then some ((c :: rest).drop pat.length)
    else dropThroughCi pat rest

/-- Drop through the first occurrence of `pat` (case-sensitive). -/
def dropThrough (pat : Chars) : Chars → Option Chars
  | [] => none
  | c :: rest =>
    if pat.isPrefixOf (c :: rest) then some ((c :: rest).drop pat.length)
    else dropThrough pat rest

/-- `re.sub(r"<ref[^>]*>.*?</ref>", "", DOTALL | IGNORECASE)`. -/
def removeRefsGo : Nat → Chars → Chars
  | 0, r => r
  | _ + 1, [] => []
  | f + 1, c :: rest =>
    let r := c :: rest
    if ciIsPrefix "<ref".data r then
      let k := ((r.drop 4).takeWhile (fun x => x ≠ '>')).length
      match (r.drop 4).drop k with
      | '>' :: rest2 =>
        match dropThroughCi "</ref>".data rest2 with
        | some rest3 => removeRefsGo f rest3
        | none => c :: removeRefsGo f rest
      | _ => c :: removeRefsGo f rest
    else c :: removeRefsGo f rest

def removeRefs (l : Chars) : Chars := removeRefsGo (l.length + 1) l

/-- `re.sub(r"<ref[^/>]*/>", "", IGNORECASE)`. -/
def removeSelfRefsGo : Nat → Chars → Chars
  | 0, r => r
  | _ + 1, [] => []
  | f + 1, c :: rest =>
    let r := c :: rest
    if ciIsPrefix "<ref".data r then
      let k := ((r.drop 4).takeWhile (fun x => x ≠ '/' && x ≠ '>')).length
      match (r.drop 4).drop k with
      | '/' :: '>' :: rest2 => removeSelfRefsGo f rest2
      | _ => c :: removeSelfRefsGo f rest
    else c :: removeSelfRefsGo f rest

def removeSelfRefs (l : Chars) : Chars := removeSelfRefsGo (l.length + 1) l

/-- `re.sub(r"<!--.*?-->", "", DOTALL)`. -/
def removeCommentsGo : Nat → Chars → Chars
  | 0, r => r
  | _ + 1, [] => []
  | f + 1, c :: rest =>
    let r := c :: rest
    if "<!--".data.isPrefixOf r then
      match dropThrough "-->".data (r.drop 4) with
      | some rest3 => removeCommentsGo f rest3
      | none => c :: removeCommentsGo f rest
    else c :: removeCommentsGo f rest

def removeComments (l : Chars) : Chars := removeCommentsGo (l.length + 1) l

/-- Inner loop of `remove_tables`: `while i < len(text) - 1 and depth > 0`.
With one character left the loop exits and the outer loop emits that
character. -/
def skipTableGo : Nat → Nat → Chars → Chars
  | 0, _, r => r
  | _ + 1, 0, r => r
  | _ + 1, _ + 1, [] => []
  | _ + 1, _ + 1, [c] => [c]
  | f + 1, d + 1, '\x7b' :: '|' :: rest => skipTableGo f (d + 2) rest
  | f + 1, d + 1, '|' :: '\x7d' :: rest => skipTableGo f d rest
  | f + 1, d + 1, _ :: rest => skipTableGo f (d + 1) rest

def skipTable (d : Nat) (r : Chars) : Chars := skipTableGo (r.length + 1) d r

/-- `remove_tables`: outer scan. -/
def removeTablesGo : Nat → Chars → Chars
  | 0, r => r
  | _ + 1, [] => []
  | f + 1, '\x7b' :: '|' :: rest => removeTablesGo f (skipTable 1 rest)
  | f + 1, c :: rest => c :: removeTablesGo f rest

def remove_tables (l : Chars) : Chars := removeTablesGo (l.length + 1) l

/-- `re.sub(r"\[\[(?:File|Image):[^]]+\]\]", "", IGNORECASE)`. -/
def removeFileLinksGo : Nat → Chars → Chars
  | 0, r => r
  | _ + 1, [] => []
  | f + 1, c :: rest =>
    let r := c :: rest
    let plen := if ciIsPrefix "[[file:".data r then 7
                else if ciIsPrefix "[[image:".data r then 8 else 0
    if plen = 0 then c :: removeFileLinksGo f rest
    else
      let k := ((r.drop plen).takeWhile (fun x => x ≠ ']')).length
      if k = 0 then c :: removeFileLinksGo f rest
      else
        match (r.drop plen).drop k with
        | ']' :: ']' :: rest2 => removeFileLinksGo f rest2
        | _ => c :: removeFileLinksGo f rest

def removeFileLinks (l : Chars) : Chars := removeFileLinksGo (l.length + 1) l

/-- Python `str.split(sep)` for a single-character separator. -/
def splitOnChar (sep : Char) : Chars → List Chars
  | [] => [[]]
  | c :: rest =>
    if c = sep then [] :: splitOnChar sep rest
    else
      match splitOnChar sep rest with
      | p :: ps => (c :: p) :: ps
      | [] => [[c]]

/-- `link_repl`: last `|`-part, with `re.sub(r"^\s*[^:]*:\s*", "", last)`
removing everything through the first colon plus following whitespace. -/
def linkReplValue (inner : Chars) : Chars :=
  let last := (splitOnChar '|' inner).getLastD []
  if last.contains ':' then
    let j := (last.takeWhile (fun c => c ≠ ':')).length
    (last.drop (j + 1)).dropWhile pyIsSpace
  else last

/-- `re.sub(r"\[\[([^]]+)\]\]", link_repl, text)`. -/
def replaceLinksGo : Nat → Chars → Chars
  | 0, r => r
  | _ + 1, [] => []
  | f + 1, c :: rest =>
    let r := c :: rest
    if "[[".data.isPrefixOf r then
      let k := ((r.drop 2).takeWhile (fun x => x ≠ ']')).length
      if k = 0 then c :: replaceLinksGo f rest
      else
        match (r.drop 2).drop k with
        | ']' :: ']' :: rest2 =>
          linkReplValue ((r.drop 2).take k) ++ replaceLinksGo f rest2
        | _ => c :: replaceLinksGo f rest
    else c :: replaceLinksGo f rest

def replaceLinks (l : Chars) : Chars := replaceLinksGo (l.length + 1) l

/-- Template names whose content is inlined by `extract_list_content`. -/
def list_templates : List Chars :=
  ["plainlist".data, "flatlist".data, "hlist".data, "ubl".data, "nowrap".data,
   "url".data, "official url".data, "official website".data,
   "start date".data, "start date and age".data, "end date".data,
   "end date and age".data]

/-- Inner scan of `extract_list_content`: collect the template content up
to the balancing `}}` at depth `d`.  On success returns the content and
the suffix after the `}}`; if fewer than two characters remain with the
template still open, returns `none` together with the unconsumed suffix
(which the outer loop then processes character by character). -/
def inlineScanGo : Nat → Nat → Chars → Chars → Option Chars × Chars
  | 0, _, _, r => (none, r)
  | _ + 1, _, _, [] => (none, [])
  | _ + 1, _, _, [c] => (none, [c])
  | f + 1, d, acc, '\x7b' :: '\x7b' :: rest =>
    inlineScanGo f (d + 1) (acc ++ ['\x7b', '\x7b']) rest
  | f + 1, d, acc, '\x7d' :: '\x7d' :: rest =>
    if d = 1 then (some acc, rest)
    else inlineScanGo f (d - 1) (acc ++ ['\x7d', '\x7d']) rest
  | f + 1, d, acc, c :: rest => inlineScanGo f d (acc ++ [c]) rest

/-- `extract_list_content`: replace `{{name|content}}` by `content` for
the listed template names; other `{{` markers are emitted verbatim and
scanning resumes right after them. -/
def extractListContentGo : Nat → Chars → Chars
  | 0, r => r
  | _ + 1, [] => []
  | f + 1, '\x7b' :: '\x7b' :: rest =>
    let namePart := rest.takeWhile (fun c => c ≠ '|' && c ≠ '\x7d' && c ≠ '\n')
    let afterName := rest.drop namePart.length
    let name := lowerL (pyStrip namePart)
    if list_templates.contains name then
      match afterName with
      | '|' :: rest2 =>
        match inlineScanGo (rest2.length + 1) 1 [] rest2 with
        | (some content, restAfter) => content ++ extractListContentGo f restAfter
        | (none, tail) => extractListContentGo f tail
      | _ => '\x7b' :: '\x7b' :: (namePart ++ extractListContentGo f afterName)
    else '\x7b' :: '\x7b' :: extractListContentGo f rest
  | f + 1, c :: rest => c :: extractListContentGo f rest

def extract_list_content (l : Chars) : Chars := extractListContentGo (l.length + 1) l

/-- Inner loop of `remove_templates`; unlike the table scan, when the
loop exits with the template still open the source does `i += 1`, so the
final character is consumed as well. -/
def skipTmplGo : Nat → Nat → Chars → Chars
  | 0, _, r => r
  | _ + 1, 0, r => r
  | _ + 1, _ + 1, [] => []
  | _ + 1, _ + 1, [_] => []
  | f + 1, d + 1, '\x7b' :: '\x7b' :: rest => skipTmplGo f (d + 2) rest
  | f + 1, d + 1, '\x7d' :: '\x7d' :: rest => skipTmplGo f d rest
  | f + 1, d + 1, _ :: rest => skipTmplGo f (d + 1) rest

def skipTmpl (d : Nat) (r : Chars) : Chars := skipTmplGo (r.length + 1) d r

/-- `remove_templates`: outer scan. -/
def removeTemplatesGo : Nat → Chars → Chars
  | 0, r => r
  | _ + 1, [] => []
  | f + 1, '\x7b' :: '\x7b' :: rest => removeTemplatesGo f (skipTmpl 1 rest)
  | f + 1, c :: rest => c :: removeTemplatesGo f rest

def remove_templates (l : Chars) : Chars := removeTemplatesGo (l.length + 1) l

/-- Python `str.replace(pat, rep)` (left-to-right, non-overlapping);
`pat` must be nonempty. -/
def replaceSubGo (pat rep : Chars) : Nat → Chars → Chars
  | 0, r => r
  | _ + 1, [] => []
  | f + 1, c :: rest =>
    if pat.isPrefixOf (c :: rest) then
      rep ++ replaceSubGo pat rep f ((c :: rest).drop pat.length)
    else c :: replaceSubGo pat rep f rest

def replaceSub (pat rep l : Chars) : Chars := replaceSubGo pat rep (l.length + 1) l

/-- `re.sub(r"</?[^>]+>", "", text)`: since `[^>]+` also matches `/`, the
match extent is `<`, one or more non-`>` characters, `>`. -/
def removeTagsGo : Nat → Chars → Chars
  | 0, r => r
  | _ + 1, [] => []
  | f + 1, '<' :: rest =>
    let k := (rest.takeWhile (fun x => x ≠ '>')).length
    if k = 0 then '<' :: removeTagsGo f rest
    else
      match rest.drop k with
      | '>' :: rest2 => removeTagsGo f rest2
      | _ => '<' :: removeTagsGo f rest
  | f + 1, c :: rest => c :: removeTagsGo f rest

def removeTags (l : Chars) : Chars := removeTagsGo (l.length + 1) l

/-- `re.sub(r"\n{3,}", "\n\n", text)`. -/
def collapseNewlinesGo : Nat → Chars → Chars
  | 0, r => r
  | _ + 1, [] => []
  | f + 1, '\n' :: rest =>
    let t := (rest.takeWhile (fun c => c = '\n')).length
    if 2 ≤ t then '\n' :: '\n' :: collapseNewlinesGo f (rest.drop t)
    else '\n' :: collapseNewlinesGo f rest
  | f + 1, c :: rest => c :: collapseNewlinesGo f rest

def collapseNewlines (l : Chars) : Chars := collapseNewlinesGo (l.length + 1) l

/-- Python `str.splitlines` restricted to `\n`, `\r` and `\r\n`
terminators (the only ones occurring in the texts considered here). -/
def pySplitlinesGo : Nat → Chars → List Chars
  | 0, _ => []
  | _ + 1, [] => []
  | f + 1, r =>
    let line := r.takeWhile (fun c => c ≠ '\n' && c ≠ '\r')
    match r.drop line.length with
    | '\r' :: '\n' :: rest2 => line :: pySplitlinesGo f rest2
    | _ :: rest2 => line :: pySplitlinesGo f rest2
    | [] => [line]

def pySplitlines (l : Chars) : List Chars := pySplitlinesGo (l.length + 1) l

/-- `"\n".join(line.strip() for line in text.splitlines())`. -/
def stripLines (l : Chars) : Chars :=
  List.intercalate ['\n'] ((pySplitlines l).map pyStrip)

/-- `re.sub(r"[ \t]{2,}", " ", text)`: a run of two or more spaces/tabs
becomes one space; a single tab is left alone. -/
def collapseSpacesTabsGo : Nat → Chars → Chars
  | 0, r => r
  | _ + 1, [] => []
  | f + 1, c :: rest =>
    if c = ' ' || c = '\t' then
      let t := (rest.takeWhile (fun x => x = ' ' || x = '\t')).length
      if 1 ≤ t then ' ' :: collapseSpacesTabsGo f (rest.drop t)
      else c :: collapseSpacesTabsGo f rest
    else c :: collapseSpacesTabsGo f rest

def collapseSpacesTabs (l : Chars) : Chars := collapseSpacesTabsGo (l.length + 1) l

/-- Match `\s*\*\s+` at the current position (the part of the bullet
pattern after the `(?:^|\n)` anchor); returns the matched length. -/
def bulletTry (r : Chars) : Option Nat :=
  let w := wsRunLen r
  match r.drop w with
  | '*' :: rest2 =>
    let w2 := wsRunLen rest2
    if 1 ≤ w2 then some (w + 1 + w2) else none
  | _ => none

/-- `re.sub(r"(?:^|\n)\s*\*\s+", "\n", text)` (no MULTILINE: the `^`
alternative applies only at the start of the string). -/
def lineStartBulletsGo : Nat → Bool → Chars → Chars
  | 0, _, r => r
  | _ + 1, _, [] => []
  | f + 1, atStart, c :: rest =>
    match (if atStart then bulletTry (c :: rest) else none) with
    | some len => '\n' :: lineStartBulletsGo f false ((c :: rest).drop len)
    | none =>
      if c = '\n' then
        match bulletTry rest with
        | some len => '\n' :: lineStartBulletsGo f false (rest.drop len)
        | none => '\n' :: lineStartBulletsGo f false rest
      else c :: lineStartBulletsGo f false rest

def lineStartBullets (l : Chars) : Chars := lineStartBulletsGo (l.length + 1) true l

/-- `re.sub(r"\*\s+", ", ", text)`. -/
def inlineStarsGo : Nat → Chars → Chars
  | 0, r => r
  | _ + 1, [] => []
  | f + 1, '*' :: rest =>
    let w := wsRunLen rest
    if 1 ≤ w then ',' :: ' ' :: inlineStarsGo f (rest.drop w)
    else '*' :: inlineStarsGo f rest
  | f + 1, c :: rest => c :: inlineStarsGo f rest

def inlineStars (l : Chars) : Chars := inlineStarsGo (l.length + 1) l

/-- `["']?p+["']?` where `p` is the run predicate (`\w` or `\d` or
the `width` value class): optional quote, a nonempty run, optional
closing quote.  Returns the matched length. -/
def quoteRunQuote (p : Char → Bool) (r : Chars) : Option Nat :=
  let q := match r with
    | c :: _ => if c = quot || c = apos then 1 else 0
    | [] => 0
  let r1 := r.drop q
  let k := (r1.takeWhile p).length
  if k = 0 then none
  else
    match r1.drop k with
    | c :: _ => if c = quot || c = apos then some (q + k + 1) else some (q + k)
    | [] => some (q + k)

/-- `!\s*scope\s*=\s*["']?\w+["']?` (IGNORECASE), matched at the head. -/
def scopeTry (r : Chars) : Option Nat :=
  match r with
  | '!' :: rest =>
    let w1 := wsRunLen rest
    let r2 := rest.drop w1
    if ciIsPrefix "scope".data r2 then
      let r3 := r2.drop 5
      let w2 := wsRunLen r3
      match r3.drop w2 with
      | '=' :: rest4 =>
        let w3 := wsRunLen rest4
        (quoteRunQuote isWordChar (rest4.drop w3)).map
          (fun ql => 1 + w1 + 5 + w2 + 1 + w3 + ql)
      | _ => none
    else none
  | _ => none

/-- `name\s*=\s*["']?\d+["']?` (IGNORECASE) for `rowspan`/`colspan`. -/
def attrNumTry (name : Chars) (r : Chars) : Option Nat :=
  if ciIsPrefix name r then
    let r1 := r.drop name.length
    let w1 := wsRunLen r1
    match r1.drop w1 with
    | '=' :: rest2 =>
      let w2 := wsRunLen rest2
      (quoteRunQuote Char.isDigit (rest2.drop w2)).map
        (fun ql => name.length + w1 + 1 + w2 + ql)
    | _ => none
  else none

/-- `name\s*=\s*["'][^"']*["']` (IGNORECASE) for `class`/`style`. -/
def attrQuotedTry (name : Chars) (r : Chars) : Option Nat :=
  if ciIsPrefix name r then
    let r1 := r.drop name.length
    let w1 := wsRunLen r1
    match r1.drop w1 with
    | '=' :: rest2 =>
      let w2 := wsRunLen rest2
      match rest2.drop w2 with
      | q0 :: rest3 =>
        if q0 = quot || q0 = apos then
          let k := (rest3.takeWhile (fun c => c ≠ quot && c ≠ apos)).length
          match rest3.drop k with
          | q1 :: _ =>
            if q1 = quot || q1 = apos then
              some (name.length + w1 + 1 + w2 + 1 + k + 1)
            else none
          | [] => none
        else none
      | [] => none
    | _ => none
  else none

/-- `width\s*=\s*["']?[^"'\s]+["']?` (IGNORECASE). -/
def widthTry (r : Chars) : Option Nat :=
  if ciIsPrefix "width".data r then
    let r1 := r.drop 5
    let w1 := wsRunLen r1
    match r1.drop w1 with
    | '=' :: rest2 =>
      let w2 := wsRunLen rest2
      (quoteRunQuote (fun c => c ≠ quot && c ≠ apos && !pyIsSpace c)
          (rest2.drop w2)).map (fun ql => 5 + w1 + 1 + w2 + ql)
    | _ => none
  else none

/-- `[!+\-]{1,3}\s*`. -/
def punctTry (r : Chars) : Option Nat :=
  match r with
  | c :: _ =>
    if c = '!' || c = '+' || c = '-' then
      let k := (r.takeWhile (fun x => x = '!' || x = '+' || x = '-')).length
      let t := min k 3
      some (t + wsRunLen (r.drop t))
    else none
  | [] => none

/-- Match the run of `|` (for `\|+`). -/
def pipeTry (r : Chars) : Option Nat :=
  match r with
  | '|' :: _ => some ((r.takeWhile (fun c => c = '|')).length)
  | _ => none

/-- `,\s*,+`. -/
def commaTry (r : Chars) : Option Nat :=
  match r with
  | ',' :: rest =>
    let w := wsRunLen rest
    match rest.drop w with
    | ',' :: _ => some (1 + w + ((rest.drop w).takeWhile (fun c => c = ',')).length)
    | _ => none
  | _ => none

/-- Generic `re.sub(pattern, rep)` driver: at each position try the
matcher (whose matches are always nonempty), else advance one
character. -/
def subSomeGo (tryM : Chars → Option Nat) (rep : Chars) : Nat → Chars → Chars
  | 0, r => r
  | _ + 1, [] => []
  | f + 1, c :: rest =>
    match tryM (c :: rest) with
    | some len => rep ++ subSomeGo tryM rep f ((c :: rest).drop len)
    | none => c :: subSomeGo tryM rep f rest

def subSome (tryM : Chars → Option Nat) (rep : Chars) (l : Chars) : Chars :=
  subSomeGo tryM rep (l.length + 1) l

/-- `re.sub(r"^\s*,\s*", "", text)` (no MULTILINE: one match at most). -/
def stripLeadingComma (l : Chars) : Chars :=
  let w := wsRunLen l
  match l.drop w with
  | ',' :: rest => rest.dropWhile pyIsSpace
  | _ => l

/-- `re.sub(r",\s*$", "", text)`: the match exists at the leftmost comma
followed only by whitespace, and extends to the end of the string. -/
def stripTrailingComma : Chars → Chars
  | [] => []
  | ',' :: rest =>
    if rest.all pyIsSpace then [] else ',' :: stripTrailingComma rest
  | c :: rest => c :: stripTrailingComma rest

/-- `clean_wikitext`: the full pass pipeline, in source order. -/
def clean_wikitext (text : Chars) : Chars :=
  if text = [] then []
  else
    let t := htmlUnescape text
    let t := headingsToPlain t
    let t := removeRefs t
    let t := removeSelfRefs t
    let t := removeComments t
    let t := remove_tables t
    let t := removeFileLinks t
    let t := replaceLinks t
    let t := extract_list_content t
    let t := remove_templates t
    let t := replaceSub (List.replicate 3 apos) [] t
    let t := replaceSub (List.replicate 2 apos) [] t
    let t := removeTags t
    let t := collapseNewlines t
    let t := stripLines t
    let t := collapseSpacesTabs t
    let t := lineStartBullets t
    let t := inlineStars t
    let t := subSome scopeTry [] t
    let t := subSome (attrNumTry "rowspan".data) [] t
    let t := subSome (attrNumTry "colspan".data) [] t
    let t := subSome (attrQuotedTry "class".data) [] t
    let t := subSome (attrQuotedTry "style".data) [] t
    let t := subSome widthTry [] t
    let t := subSome punctTry [' '] t
    let t := replaceSub "[[".data [] t
    let t := replaceSub "]]".data [] t
    let t := subSome pipeTry [',', ' '] t
    let t := subSome commaTry [','] t
    let t := stripLeadingComma t
    let t := stripTrailingComma t
    pyStrip t

/-! ### Section extraction -/

/-- Match attempt of `(?<!\n)(={2,6}[^=\n]+={2,6})` at the head of `r`
(the lookbehind is checked by the caller): a full `=` run of length 2–6,
a nonempty run of non-`=`/non-newline characters, then at least two `=`,
of which the greedy trailer takes at most six.  Returns the matched
length. -/
def nhTry (r : Chars) : Option Nat :=
  let L := eqRunLen r
  if 2 ≤ L && L ≤ 6 then
    let after := r.drop L
    let t := (after.takeWhile (fun c => c ≠ '=' && c ≠ '\n')).length
    if t = 0 then none
    else
      let M := eqRunLen (after.drop t)
      if 2 ≤ M then some (L + t + min M 6) else none
  else none

/-- `normalize_headings`: `re.sub(r"(?<!\n)(={2,6}[^=\n]+={2,6})", r"\n\1")`.
The boolean records whether the previous character is a newline (the
lookbehind); a match always ends with `=`. -/
def normalizeHeadingsGo : Nat → Bool → Chars → Chars
  | 0, _, r => r
  | _ + 1, _, [] => []
  | f + 1, prevNl, c :: rest =>
    if prevNl then c :: normalizeHeadingsGo f (c = '\n') rest
    else
      match nhTry (c :: rest) with
      | some len =>
        '\n' :: ((c :: rest).take len ++ normalizeHeadingsGo f false ((c :: rest).drop len))
      | none => c :: normalizeHeadingsGo f (c = '\n') rest

def normalize_headings (l : Chars) : Chars := normalizeHeadingsGo (l.length + 1) false l

/-- One match of `SECTION_RE`, with offsets into the scanned text. -/
structure SecMatch where
  start : Nat
  stop : Nat
  level : Nat
  title : Chars
deriving DecidableEq

/-- `SECTION_RE.finditer`: scan left to right; at each position first try
the `^` alternative (the flag tracks line starts), then the `\n`
alternative; matches are non-overlapping and scanning resumes at the
match end (whose final character is always `=`, hence not a line
start). -/
def sectionMatchesGo : Nat → Nat → Bool → Chars → List SecMatch
  | 0, _, _, _ => []
  | _ + 1, _, _, [] => []
  | f + 1, pos, atLS, c :: rest =>
    match (if atLS then matchCore (c :: rest) else none) with
    | some (len, L, title) =>
      ⟨pos, pos + len, L, title⟩ ::
        sectionMatchesGo f (pos + len) false ((c :: rest).drop len)
    | none =>
      if c = '\n' then
        match matchCore rest with
        | some (len, L, title) =>
          ⟨pos, pos + 1 + len, L, title⟩ ::
            sectionMatchesGo f (pos + 1 + len) false (rest.drop len)
        | none => sectionMatchesGo f (pos + 1) true rest
      else sectionMatchesGo f (pos + 1) false rest

def sectionMatches (l : Chars) : List SecMatch :=
  sectionMatchesGo (l.length + 1) 0 true l

/-- Python slice `l[a:b]`. -/
def slice (l : Chars) (a b : Nat) : Chars := (l.drop a).take (b - a)

/-- `title.strip().strip(" '\"").lower()`. -/
def cleanSecTitle (t : Chars) : Chars :=
  lowerL (pyStripChars [' ', apos, quot] (pyStrip t))

/-- Inner loop of `find_section_block`: the first later match with level
`≤ level` bounds the section, else the default (document length). -/
def findEndBound (level : Nat) (dflt : Nat) : List SecMatch → Nat
  | [] => dflt
  | m2 :: rest => if m2.level ≤ level then m2.start else findEndBound level dflt rest

/-- Outer loop of `find_section_block` over the match list. -/
def findSecLoop (wt : Chars) (target : Chars) : List SecMatch → Option Chars
  | [] => none
  | m :: rest =>
    if cleanSecTitle m.title = target then
      some (pyStrip (slice wt m.stop (findEndBound m.level wt.length rest)))
    else findSecLoop wt target rest

/-- `find_section_block`. -/
def find_section_block (wikitext section_name : Chars) : Option Chars :=
  let wt := normalize_headings wikitext
  match sectionMatches wt with
  | [] => none
  | ms => findSecLoop wt (lowerL (pyStrip section_name)) ms

/-- Modelled from the spec (§4.2): declarative form — take the first
scanned heading whose cleaned title equals the target; its body runs
from just after the heading to the start of the next heading of level
less than or equal to the matched level, or to the end of the document,
and is returned trimmed. -/
def findSectionSpec (wikitext section_name : Chars) : Option Chars :=
  let wt := normalize_headings wikitext
  let ms := sectionMatches wt
  let target := lowerL (pyStrip section_name)
  match ms.findIdx? (fun m => cleanSecTitle m.title = target) with
  | none => none
  | some i =>
    match ms[i]? with
    | none => none
    | some m =>
      let endPos :=
        match (ms.drop (i + 1)).find? (fun m2 => m2.level ≤ m.level) with
        | some m2 => m2.start
        | none => wt.length
      some (pyStrip (slice wt m.stop endPos))

/-! ### Infobox extraction and parsing -/

/-- Python `str.find(pat)`: index of the first occurrence. -/
def findSubIdx (pat : Chars) : Chars → Option Nat
  | [] => if pat.isPrefixOf [] then some 0 else none
  | c :: rest =>
    if pat.isPrefixOf (c :: rest) then some 0
    else (findSubIdx pat rest).map (· + 1)

def containsSub (pat l : Chars) : Bool := (findSubIdx pat l).isSome

/-- Brace-depth scan of `extract_infobox_block`, over the suffix starting
at the `{{Infobox` occurrence; `n` counts consumed characters.  The loop
runs while at least two characters remain; `none` models falling out of
the loop without the depth returning to zero. -/
def ibScanGo : Nat → Int → Nat → Chars → Option Nat
  | 0, _, _, _ => none
  | _ + 1, _, _, [] => none
  | _ + 1, _, _, [_] => none
  | f + 1, depth, n, '\x7b' :: '\x7b' :: rest => ibScanGo f (depth + 1) (n + 2) rest
  | f + 1, depth, n, '\x7d' :: '\x7d' :: rest =>
    if depth - 1 = 0 then some (n + 2) else ibScanGo f (depth - 1) (n + 2) rest
  | f + 1, depth, n, _ :: rest => ibScanGo f depth (n + 1) rest

/-- `extract_infobox_block(wikitext, "Infobox")`. -/
def extract_infobox_block (wikitext : Chars) : Option Chars :=
  match findSubIdx "\x7b\x7bInfobox".data wikitext with
  | none => none
  | some idx =>
    let r := wikitext.drop idx
    match ibScanGo (r.length + 1) 0 0 r with
    | some n => some (r.take n)
    | none => none

/-- Split on top-level `|` (depth counted over `{{`/`}}`, as an integer,
matching the Python scan); the trailing part is kept only when
nonempty. -/
def topSplitGo : Nat → Int → Chars → Chars → List Chars
  | 0, _, cur, _ => if cur = [] then [] else [cur]
  | _ + 1, _, cur, [] => if cur = [] then [] else [cur]
  | f + 1, depth, cur, '\x7b' :: '\x7b' :: rest =>
    topSplitGo f (depth + 1) (cur ++ ['\x7b', '\x7b']) rest
  | f + 1, depth, cur, '\x7d' :: '\x7d' :: rest =>
    topSplitGo f (depth - 1) (cur ++ ['\x7d', '\x7d']) rest
  | f + 1, depth, cur, '|' :: rest =>
    if depth = 0 then cur :: topSplitGo f depth [] rest
    else topSplitGo f depth (cur ++ ['|']) rest
  | f + 1, depth, cur, c :: rest => topSplitGo f depth (cur ++ [c]) rest

/-- Python `dict` assignment `fields[key] = value`: overwrite in place,
else append. -/
def dictInsert (k v : Chars) (fields : List (Chars × Chars)) : List (Chars × Chars) :=
  if fields.any (fun p => p.1 = k) then
    fields.map (fun p => if p.1 = k then (k, v) else p)
  else fields ++ [(k, v)]

/-- Build the field mapping: split each part at its first `=`, skip parts
without `=`, strip key and value, skip empty keys. -/
def fieldsOfParts : List Chars → List (Chars × Chars) → List (Chars × Chars)
  | [], fields => fields
  | part :: rest, fields =>
    if part.contains '=' then
      let j := (part.takeWhile (fun c => c ≠ '=')).length
      let key := pyStrip (part.take j)
      let value := pyStrip (part.drop (j + 1))
      if key = [] then fieldsOfParts rest fields
      else fieldsOfParts rest (dictInsert key value fields)
    else fieldsOfParts rest fields

/-- `parse_infobox_fields`, as an insertion-ordered association list
(mirroring the Python dict). -/
def parse_infobox_fields (infobox_text : Chars) : List (Chars × Chars) :=
  if infobox_text = [] then []
  else
    let inner := pyStrip infobox_text
    let inner := if "\x7b\x7b".data.isPrefixOf inner then inner.drop 2 else inner
    let inner := if "\x7d\x7d".data.isSuffixOf inner then inner.take (inner.length - 2) else inner
    let inner := pyStrip inner
    if inner.contains '|' then
      let j := (inner.takeWhile (fun c => c ≠ '|')).length
      let rest := inner.drop (j + 1)
      fieldsOfParts (topSplitGo (rest.length + 1) 0 [] rest) []
    else []

/-- `clean_infobox_value`. -/
def clean_infobox_value (value : Chars) : Chars := clean_wikitext value

/-- Field lookup of `extract_infobox_field_clean`: first key whose
trimmed lowercase form equals the target, value cleaned on retrieval. -/
def lookupFieldClean (fields : List (Chars × Chars)) (field_name : Chars) : Option Chars :=
  let target := lowerL (pyStrip field_name)
  match fields.find? (fun p => lowerL (pyStrip p.1) = target) with
  | some p => some (clean_infobox_value p.2)
  | none => none

/-! ### Entity resolution (per-page logic of `parse_partition`) -/

def dedupGo (seen : List String) : List String → List String
  | [] => []
  | x :: rest =>
    if seen.contains x then dedupGo seen rest
    else x :: dedupGo (x :: seen) rest

/-- `list(dict.fromkeys(xs))`: deduplicate preserving first occurrence. -/
def dedupKeepFirst (xs : List String) : List String := dedupGo [] xs

/-- The requested entity categories: for each title variant, the sets
are probed in the fixed order country, city, artist, venue. -/
def requestedTypesFor (title : Chars)
    (countries cities artists venues : List Chars) : List String :=
  let variants := normalize_title_variants title
  dedupKeepFirst (variants.flatMap (fun v =>
    (if countries.contains v then ["country"] else []) ++
    (if cities.contains v then ["city"] else []) ++
    (if artists.contains v then ["artist"] else []) ++
    (if venues.contains v then ["venue"] else [])))

/-- The detected page type with the geography-biased fallback. -/
def detectedOrFallback (pageText : Chars) (requested : List String) : Option String :=
  match detect_page_type pageText with
  | some t => some t
  | none =>
    if requested.contains "city" then some "city"
    else if requested.contains "country" then some "country"
    else none

/-- Per-page accept/reject decision of `parse_partition` (lines 874–922):
given a complete page, yield `(title_norm, entity_type)` or nothing.
The emitted Row also carries `title` and `page_text` verbatim, which we
omit. -/
def resolvePage (title pageText : Chars) (isRedirect : Bool) (ns : Int)
    (countries cities artists venues : List Chars) : Option (Chars × String) :=
  if title ≠ [] && !isRedirect && ns = 0 then
    if containsSub "(disambiguation)".data (lowerL title) then none
    else
      let requested := requestedTypesFor title countries cities artists venues
      if requested = [] then none
      else
        match detectedOrFallback pageText requested with
        | some dt =>
          if requested.contains dt then
            some ((normalize_title_variants title).getLastD (normalize_title title), dt)
          else none
        | none => none
  else none

/-! ### Fuel-indexed loop machines for the depth-counted scans

Each machine spends one unit of fuel per loop iteration and returns
`none` exactly on fuel exhaustion; the termination theorems show that
`input length + 1` units always suffice, i.e. each scan is an
index-advancing loop bounded by the input length. -/

def tablesLoop : Nat → Nat → Chars → Chars → Option Chars
  | 0, _, _, _ => none
  | _ + 1, 0, [], acc => some acc
  | f + 1, 0, '\x7b' :: '|' :: rest, acc => tablesLoop f 1 rest acc
  | f + 1, 0, c :: rest, acc => tablesLoop f 0 rest (acc ++ [c])
  | _ + 1, _ + 1, [], acc => some acc
  | _ + 1, _ + 1, [c], acc => some (acc ++ [c])
  | f + 1, d + 1, '\x7b' :: '|' :: rest, acc => tablesLoop f (d + 2) rest acc
  | f + 1, d + 1, '|' :: '\x7d' :: rest, acc => tablesLoop f d rest acc
  | f + 1, d + 1, _ :: rest, acc => tablesLoop f (d + 1) rest acc

def templatesLoop : Nat → Nat → Chars → Chars → Option Chars
  | 0, _, _, _ => none
  | _ + 1, 0, [], acc => some acc
  | f + 1, 0, '\x7b' :: '\x7b' :: rest, acc => templatesLoop f 1 rest acc
  | f + 1, 0, c :: rest, acc => templatesLoop f 0 rest (acc ++ [c])
  | _ + 1, _ + 1, [], acc => some acc
  | _ + 1, _ + 1, [_], acc => some acc
  | f + 1, d + 1, '\x7b' :: '\x7b' :: rest, acc => templatesLoop f (d + 2) rest acc
  | f + 1, d + 1, '\x7d' :: '\x7d' :: rest, acc => templatesLoop f d rest acc
  | f + 1, d + 1, _ :: rest, acc => templatesLoop f (d + 1) rest acc

def inlineLoop : Nat → Nat → Chars → Chars → Option (Option Chars × Chars)
  | 0, _, _, _ => none
  | _ + 1, _, _, [] => some (none, [])
  | _ + 1, _, _, [c] => some (none, [c])
  | f + 1, d, acc, '\x7b' :: '\x7b' :: rest =>
    inlineLoop f (d + 1) (acc ++ ['\x7b', '\x7b']) rest
  | f + 1, d, acc, '\x7d' :: '\x7d' :: rest =>
    if d = 1 then some (some acc, rest)
    else inlineLoop f (d - 1) (acc ++ ['\x7d', '\x7d']) rest
  | f + 1, d, acc, c :: rest => inlineLoop f d (acc ++ [c]) rest

def listLoop : Nat → Chars → Chars → Option Chars
  | 0, _, _ => none
  | _ + 1, [], acc => some acc
  | f + 1, '\x7b' :: '\x7b' :: rest, acc =>
    let namePart := rest.takeWhile (fun c => c ≠ '|' && c ≠ '\x7d' && c ≠ '\n')
    let afterName := rest.drop namePart.length
    let name := lowerL (pyStrip namePart)
    if list_templates.contains name then
      match afterName with
      | '|' :: rest2 =>
        match inlineScanGo (rest2.length + 1) 1 [] rest2 with
        | (some content, restAfter) => listLoop f restAfter (acc ++ content)
        | (none, tail) => listLoop f tail acc
      | _ => listLoop f afterName (acc ++ '\x7b' :: '\x7b' :: namePart)
    else listLoop f rest (acc ++ ['\x7b', '\x7b'])
  | f + 1, c :: rest, acc => listLoop f rest (acc ++ [c])

def infoboxLoop : Nat → Int → Nat → Chars → Option (Option Nat)
  | 0, _, _, _ => none
  | _ + 1, _, _, [] => some none
  | _ + 1, _, _, [_] => some none
  | f + 1, depth, n, '\x7b' :: '\x7b' :: rest => infoboxLoop f (depth + 1) (n + 2) rest
  | f + 1, depth, n, '\x7d' :: '\x7d' :: rest =>
    if depth - 1 = 0 then some (some (n + 2)) else infoboxLoop f (depth - 1) (n + 2) rest
  | f + 1, depth, n, _ :: rest => infoboxLoop f depth (n + 1) rest

/-! ### Predicates used in theorem statements -/

/-- Whether the inner table scan ever returns to depth zero (i.e. the
`{| … |}` block is terminated); mirrors `skipTableGo` step by step. -/
def tableClosesGo : Nat → Nat → Chars → Bool
  | 0, _, _ => false
  | _ + 1, 0, _ => true
  | _ + 1, _ + 1, [] => false
  | _ + 1, _ + 1, [_] => false
  | f + 1, d + 1, '\x7b' :: '|' :: rest => tableClosesGo f (d + 2) rest
  | f + 1, d + 1, '|' :: '\x7d' :: rest => tableClosesGo f d rest
  | f + 1, d + 1, _ :: rest => tableClosesGo f (d + 1) rest

def tableCloses (d : Nat) (r : Chars) : Bool := tableClosesGo (r.length + 1) d r

/-- The markup metacharacters of the language being cleaned (links,
templates, tables, headings, HTML, entities, emphasis, pipes). -/
def markupChars : Chars :=
  ['&', '<', '>', '=', '[', ']', '\x7b', '\x7d', '|', '*', apos]

/-- "Contains no markup syntax": none of the markup metacharacters
occurs. -/
def containsNoMarkupSyntax (l : Chars) : Bool :=
  l.all (fun c => !markupChars.contains c)

/-- Characters additionally consumed by the cleaner's late punctuation
passes. -/
def specialChar (c : Char) : Bool :=
  (markupChars ++ ['!', '+', '-', ',']).contains c

/-- A character the cleaner passes through untouched: not a markup or
punctuation metacharacter (also after case folding, so the
case-insensitive scanners evaluate directly), and no whitespace other
than a plain space. -/
def plainChar (c : Char) : Bool :=
  !specialChar c && !specialChar c.toLower && (c = ' ' || !pyIsSpace c)

def noDoubleSpace : Chars → Bool
  | a :: b :: rest => !(a = ' ' && b = ' ') && noDoubleSpace (b :: rest)
  | _ => true

/-- Plain text on which the cleaner acts as the identity: plain
characters only, no two adjacent spaces, no leading or trailing
space. -/
def plainFixed (x : Chars) : Bool :=
  x.all plainChar && noDoubleSpace x && !(x.head? == some ' ') &&
    !(x.getLast? == some ' ')

/-! ## Theorems -/

/-- The fold of `pickMaxKey` as a nested conditional on the scores. -/
theorem pickMaxKey_fst (sc sci sv sa : Nat) :
    (pickMaxKey [("city", sci), ("venue", sv), ("artist", sa)] ("country", sc)).1 =
      if sci > sc then
        (if sv > sci then (if sa > sv then "artist" else "venue")
         else (if sa > sci then "artist" else "city"))
      else
        (if sv > sc then (if sa > sv then "artist" else "venue")
         else (if sa > sc then "artist" else "country")) := by
  unfold pickMaxKey
  simp only [List.foldl_cons, List.foldl_nil]
  by_cases h1 : sci > sc <;> by_cases h2 : sv > sci <;> by_cases h3 : sv > sc <;>
    by_cases h4 : sa > sv <;> by_cases h5 : sa > sci <;> by_cases h6 : sa > sc <;>
    simp [h1, h2, h3, h4, h5, h6]

/-- Behaviour of the score-maximum selection, generically in the four
scores: a strictly greatest score wins, and the result is `none` exactly
when all scores vanish. -/
theorem detectFromScores_spec (sc sci sv sa : Nat) :
    ((sc > sci ∧ sc > sv ∧ sc > sa) → detectFromScores sc sci sv sa = some "country") ∧
    ((sci > sc ∧ sci > sv ∧ sci > sa) → detectFromScores sc sci sv sa = some "city") ∧
    ((sv > sc ∧ sv > sci ∧ sv > sa) → detectFromScores sc sci sv sa = some "venue") ∧
    ((sa > sc ∧ sa > sci ∧ sa > sv) → detectFromScores sc sci sv sa = some "artist") ∧
    (detectFromScores sc sci sv sa = none ↔ sc = 0 ∧ sci = 0 ∧ sv = 0 ∧ sa = 0) := by
  simp only [detectFromScores]
  rw [pickMaxKey_fst]
  refine ⟨fun h => ?_, fun h => ?_, fun h => ?_, fun h => ?_, ?_⟩
  · split_ifs <;> first | rfl | (exfalso; omega)
  · split_ifs <;> first | rfl | (exfalso; omega)
  · split_ifs <;> first | rfl | (exfalso; omega)
  · split_ifs <;> first | rfl | (exfalso; omega)
  · constructor
    · intro h
      split_ifs at h with hmax
      omega
    · rintro ⟨rfl, rfl, rfl, rfl⟩
      simp

/-- Tie-breaking of the score-maximum selection, generically: the first
key in insertion order (country, city, venue, artist) attaining the
maximum is returned. -/
theorem detectFromScores_tie (sc sci sv sa : Nat)
    (hm : 0 < max (max sc sci) (max sv sa)) :
    (sc = max (max sc sci) (max sv sa) →
      detectFromScores sc sci sv sa = some "country") ∧
    (sc ≠ max (max sc sci) (max sv sa) →
      sci = max (max sc sci) (max sv sa) →
      detectFromScores sc sci sv sa = some "city") ∧
    (sc ≠ max (max sc sci) (max sv sa) →
      sci ≠ max (max sc sci) (max sv sa) →
      sv = max (max sc sci) (max sv sa) →
      detectFromScores sc sci sv sa = some "venue") ∧
    (sc ≠ max (max sc sci) (max sv sa) →
      sci ≠ max (max sc sci) (max sv sa) →
      sv ≠ max (max sc sci) (max sv sa) →
      sa = max (max sc sci) (max sv sa) →
      detectFromScores sc sci sv sa = some "artist") := by
  simp only [detectFromScores]
  rw [pickMaxKey_fst]
  refine ⟨fun h => ?_, fun h1 h2 => ?_, fun h1 h2 h3 => ?_, fun h1 h2 h3 h4 => ?_⟩ <;>
    (split_ifs <;> first | rfl | (exfalso; omega))



/-- C8: `classify` returns the entity type with the strictly greatest
signal score (each matching pattern adding one point to its type,
order-independently — the scores are sums of match indicators), and
returns absent exactly when the maximum score is zero, i.e. when no
pattern of any type matches the page text. -/
theorem C8_classify_strict_max (text : Chars) :
    (((pageScores text).1 > (pageScores text).2.1 ∧
        (pageScores text).1 > (pageScores text).2.2.1 ∧
        (pageScores text).1 > (pageScores text).2.2.2) →
      detect_page_type text = some "country") ∧
    (((pageScores text).2.1 > (pageScores text).1 ∧
        (pageScores text).2.1 > (pageScores text).2.2.1 ∧
        (pageScores text).2.1 > (pageScores text).2.2.2) →
      detect_page_type text = some "city") ∧
    (((pageScores text).2.2.1 > (pageScores text).1 ∧
        (pageScores text).2.2.1 > (pageScores text).2.1 ∧
        (pageScores text).2.2.1 > (pageScores text).2.2.2) →
      detect_page_type text = some "venue") ∧
    (((pageScores text).2.2.2 > (pageScores text).1 ∧
        (pageScores text).2.2.2 > (pageScores text).2.1 ∧
        (pageScores text).2.2.2 > (pageScores text).2.2.1) →
      detect_page_type text = some "artist") ∧
    (detect_page_type text = none ↔
      (pageScores text).1 = 0 ∧ (pageScores text).2.1 = 0 ∧
        (pageScores text).2.2.1 = 0 ∧ (pageScores text).2.2.2 = 0) := by
  have h := detectFromScores_spec (pageScores text).1 (pageScores text).2.1
    (pageScores text).2.2.1 (pageScores text).2.2.2
  have hd : detect_page_type text = detectFromScores (pageScores text).1
      (pageScores text).2.1 (pageScores text).2.2.1 (pageScores text).2.2.2 := rfl
  rw [hd]
  refine ⟨fun hh => h.1 ⟨hh.1, hh.2.1, hh.2.2⟩, fun hh => h.2.1 ⟨hh.1, hh.2.1, hh.2.2⟩,
    fun hh => h.2.2.1 ⟨hh.1, hh.2.1, hh.2.2⟩, fun hh => h.2.2.2.1 ⟨hh.1, hh.2.1, hh.2.2⟩,
    h.2.2.2.2⟩

/-- Witness for C8: each strict-maximum hypothesis discharged at a
concrete page text, and the zero case at a signal-free text. -/
theorem C8_classify_strict_max_witness :
    detect_page_type "\x7b\x7bInfobox country".data = some "country" ∧
    detect_page_type "\x7b\x7bInfobox settlement".data = some "city" ∧
    detect_page_type "\x7b\x7bInfobox arena".data = some "venue" ∧
    detect_page_type "[[Category:English rock bands]]".data = some "artist" ∧
    detect_page_type "plain page".data = none :=
  ⟨(C8_classify_strict_max _).1 (by decide),
   (C8_classify_strict_max _).2.1 (by decide),
   (C8_classify_strict_max _).2.2.1 (by decide),
   (C8_classify_strict_max _).2.2.2.1 (by decide),
   ((C8_classify_strict_max "plain page".data).2.2.2.2).mpr (by decide)⟩

/-- C10: on a nonzero maximum, `classify` returns the first type in the
fixed insertion order country, city, venue, artist whose score attains
the maximum — in particular ties are broken deterministically in that
order. -/
theorem C10_classify_tie_order (text : Chars)
    (hm : 0 < max (max (pageScores text).1 (pageScores text).2.1)
      (max (pageScores text).2.2.1 (pageScores text).2.2.2)) :
    ((pageScores text).1 = max (max (pageScores text).1 (pageScores text).2.1)
        (max (pageScores text).2.2.1 (pageScores text).2.2.2) →
      detect_page_type text = some "country") ∧
    ((pageScores text).1 ≠ max (max (pageScores text).1 (pageScores text).2.1)
        (max (pageScores text).2.2.1 (pageScores text).2.2.2) →
      (pageScores text).2.1 = max (max (pageScores text).1 (pageScores text).2.1)
        (max (pageScores text).2.2.1 (pageScores text).2.2.2) →
      detect_page_type text = some "city") ∧
    ((pageScores text).1 ≠ max (max (pageScores text).1 (pageScores text).2.1)
        (max (pageScores text).2.2.1 (pageScores text).2.2.2) →
      (pageScores text).2.1 ≠ max (max (pageScores text).1 (pageScores text).2.1)
        (max (pageScores text).2.2.1 (pageScores text).2.2.2) →
      (pageScores text).2.2.1 = max (max (pageScores text).1 (pageScores text).2.1)
        (max (pageScores text).2.2.1 (pageScores text).2.2.2) →
      detect_page_type text = some "venue") ∧
    ((pageScores text).1 ≠ max (max (pageScores text).1 (pageScores text).2.1)
        (max (pageScores text).2.2.1 (pageScores text).2.2.2) →
      (pageScores text).2.1 ≠ max (max (pageScores text).1 (pageScores text).2.1)
        (max (pageScores text).2.2.1 (pageScores text).2.2.2) →
      (pageScores text).2.2.1 ≠ max (max (pageScores text).1 (pageScores text).2.1)
        (max (pageScores text).2.2.1 (pageScores text).2.2.2) →
      (pageScores text).2.2.2 = max (max (pageScores text).1 (pageScores text).2.1)
        (max (pageScores text).2.2.1 (pageScores text).2.2.2) →
      detect_page_type text = some "artist") := by
  have h := detectFromScores_tie (pageScores text).1 (pageScores text).2.1
    (pageScores text).2.2.1 (pageScores text).2.2.2 hm
  have hd : detect_page_type text = detectFromScores (pageScores text).1
      (pageScores text).2.1 (pageScores text).2.2.1 (pageScores text).2.2.2 := rfl
  rw [hd]
  exact h

/-- Witness for C10: a genuine city/venue tie (both score 1) resolved to
`city`, and a country-maximum case resolved to `country`. -/
theorem C10_classify_tie_order_witness :
    detect_page_type "\x7b\x7bInfobox arena\x7d\x7d [[Category:German cities]]".data =
      some "city" ∧
    detect_page_type "\x7b\x7bInfobox country".data = some "country" :=
  ⟨(C10_classify_tie_order "\x7b\x7bInfobox arena\x7d\x7d [[Category:German cities]]".data
      (by decide)).2.1 (by decide) (by decide),
   (C10_classify_tie_order "\x7b\x7bInfobox country".data (by decide)).1 (by decide)⟩

/-- C7: `normalizeMention` canonicalizes "USA" to the normalized form of
"united states" for countries; substitutes the full state name for a
two-letter US state code in the city field when the context country is
USA; otherwise lowercases, trims and collapses internal whitespace
(`normalize_title`); in particular `normalizeMention("TX", city, "USA")
= "texas"`. -/
theorem C7_normalize_mention :
    (∀ (v : Chars) (c : Option Chars), upperL v = "USA".data →
      normalize_entity v "country" c = "united states".data) ∧
    (∀ (v c : Chars) (p : String × String), upperL c = "USA".data →
      US_STATE_CODES.find? (fun q => q.1.data = upperL (pyStrip v)) = some p →
      normalize_entity v "city" (some c) = normalize_title p.2.data) ∧
    (∀ (v : Chars) (ty : String) (c : Option Chars),
      ty ≠ "country" → ty ≠ "city" → normalize_entity v ty c = normalize_title v) ∧
    normalize_entity "TX".data "city" (some "USA".data) = "texas".data := by
  refine ⟨fun v c h => ?_, fun v c p hc hfind => ?_, fun v ty c h1 h2 => ?_, by decide⟩
  · have hv : normalize_title "United States".data = "united states".data := by decide
    simp [normalize_entity, h, hv]
  · have hne : ("city" : String) ≠ "country" := by decide
    simp [normalize_entity, hne, hc, hfind]
  · cases c with
    | none => simp [normalize_entity, h1]
    | some c' => simp [normalize_entity, h1, h2]

/-- Witness for C7: the three hypothetical clauses discharged at
concrete mentions. -/
theorem C7_normalize_mention_witness :
    normalize_entity "USA".data "country" none = "united states".data ∧
    normalize_entity "TX".data "city" (some "USA".data) =
      normalize_title "Texas".data ∧
    normalize_entity " Berlin  City ".data "venue" none = "berlin city".data :=
  ⟨C7_normalize_mention.1 "USA".data none (by decide),
   C7_normalize_mention.2.1 "TX".data "USA".data ("TX", "Texas") (by decide) (by decide),
   by
    rw [C7_normalize_mention.2.2.1 " Berlin  City ".data "venue" none
      (by decide) (by decide)]
    decide⟩

/-- C1: `resolvePage` accepts a title-matched page only if the detected
(or geography-fallback) entity type is one of the requested types, the
emitted entity type being exactly that type; and the page titled
"Sticky Fingers (band)" with an artist-category signal in its body and
`artistMentions = \x7b"sticky fingers"\x7d` is accepted with
`entityType = artist` and `titleNorm = "sticky fingers"` (the last,
clarifier-stripped title variant). -/
theorem C1_resolve_type_guard :
    (∀ (title pageText : Chars) (red : Bool) (ns : Int)
        (cs cis as vs : List Chars) (out : Chars × String),
      resolvePage title pageText red ns cs cis as vs = some out →
      detectedOrFallback pageText (requestedTypesFor title cs cis as vs) = some out.2 ∧
        (requestedTypesFor title cs cis as vs).contains out.2 = true) ∧
    resolvePage "Sticky Fingers (band)".data "[[Category:English rock bands]]".data
        false 0 [] [] ["sticky fingers".data] [] =
      some ("sticky fingers".data, "artist") := by
  constructor
  · intro title pageText red ns cs cis as vs out h
    simp only [resolvePage] at h
    split at h
    · split at h
      · exact absurd h (by simp)
      · split at h
        · exact absurd h (by simp)
        · rename_i hdo
          split at h
          · rename_i dt hsome
            split at h
            · rename_i hmem
              obtain rfl := Option.some.inj h
              exact ⟨hsome, hmem⟩
            · exact absurd h (by simp)
          · exact absurd h (by simp)
    · exact absurd h (by simp)
  · decide

/-- Witness for C1: the acceptance hypothesis discharged with the
concrete "Sticky Fingers (band)" page of the claim. -/
theorem C1_resolve_type_guard_witness :
    detectedOrFallback "[[Category:English rock bands]]".data
        (requestedTypesFor "Sticky Fingers (band)".data [] [] ["sticky fingers".data] []) =
      some "artist" ∧
    (requestedTypesFor "Sticky Fingers (band)".data [] [] ["sticky fingers".data]
        []).contains "artist" = true :=
  C1_resolve_type_guard.1 "Sticky Fingers (band)".data
    "[[Category:English rock bands]]".data false 0 [] [] ["sticky fingers".data] []
    ("sticky fingers".data, "artist") C1_resolve_type_guard.2

/-- If the table scan never returns to depth zero within its fuel bound,
it consumes all but at most the final character (the inner loop stops
one position short of the end of the input). -/
theorem skipTableGo_unclosed : ∀ fuel d r, r.length < fuel →
    tableClosesGo fuel d r = false → (skipTableGo fuel d r).length ≤ 1 := by
  intro fuel
  induction fuel with
  | zero => intro d r h _; omega
  | succ f ih =>
    intro d r hlen hcl
    match d, r with
    | 0, r => rw [tableClosesGo] at hcl; simp at hcl
    | d + 1, [] => rw [skipTableGo]; simp
    | d + 1, [c] => rw [skipTableGo]; simp
    | d + 1, a :: b :: rest =>
      by_cases hab : a = '\x7b' ∧ b = '|'
      · obtain ⟨rfl, rfl⟩ := hab
        rw [skipTableGo]
        rw [tableClosesGo] at hcl
        exact ih (d + 2) rest (by simp at hlen; omega) hcl
      · by_cases hab2 : a = '|' ∧ b = '\x7d'
        · obtain ⟨rfl, rfl⟩ := hab2
          rw [skipTableGo]
          rw [tableClosesGo] at hcl
          exact ih d rest (by simp at hlen; omega) hcl
        · have hs : skipTableGo (f + 1) (d + 1) (a :: b :: rest) =
              skipTableGo f (d + 1) (b :: rest) := by
            rw [skipTableGo.eq_def]; split <;> simp_all
          have hc2 : tableClosesGo (f + 1) (d + 1) (a :: b :: rest) =
              tableClosesGo f (d + 1) (b :: rest) := by
            rw [tableClosesGo.eq_def]; split <;> simp_all
          rw [hs]
          rw [hc2] at hcl
          exact ih (d + 1) (b :: rest) (by simp at hlen ⊢; omega) hcl

/-- C3 (amended): cleaning the nested-table example yields
"beforeafter"; when end-of-input is reached with the table still open,
the scan consumes the remainder except that it stops one character
short of the end, so at most the final character of the input survives
the unmatched block. -/
theorem C3_table_removal :
    clean_wikitext "before\x7b|\nrow\x7b|\ninner|\x7d\n|\x7dafter".data =
      "beforeafter".data ∧
    remove_tables "before\x7b|\nrow\x7b|\ninner|\x7d\n|\x7dafter".data =
      "beforeafter".data ∧
    (∀ (d : Nat) (r : Chars), 0 < d → tableCloses d r = false →
      (skipTable d r).length ≤ 1) :=
  ⟨by decide, by decide, fun d r _ hcl =>
    skipTableGo_unclosed (r.length + 1) d r (by omega) hcl⟩

/-- Counterexample for C3 as stated: on "a\x7b|bc" the unmatched table
scan stops before the final character, which is emitted — the output is
"ac", not "a", so a character after the unmatched marker does appear. -/
theorem C3_counterexample :
    remove_tables "a\x7b|bc".data = "ac".data ∧ "ac".data ≠ "a".data :=
  ⟨by decide, by decide⟩

/-- Witness for C3: the unclosed-scan clause at depth 1 on "bc". -/
theorem C3_table_removal_witness :
    (0 : Nat) < 1 ∧ tableCloses 1 "bc".data = false ∧
      (skipTable 1 "bc".data).length ≤ 1 :=
  ⟨by decide, by decide, C3_table_removal.2.2 1 "bc".data (by decide) (by decide)⟩

/-- C4 (amended): cleaning "x \x7b\x7ba|\x7b\x7bb|c\x7d\x7d|d\x7d\x7d y"
yields "x y": the whole nested template is removed as one unit, leaving
the two adjacent spaces, which the later whitespace-normalization pass
collapses to a single space. -/
theorem C4_nested_template_clean :
    clean_wikitext "x \x7b\x7ba|\x7b\x7bb|c\x7d\x7d|d\x7d\x7d y".data =
      "x y".data := by decide

/-- Counterexample for C4 as stated: the result is not "x  y" with two
spaces (the `[ \t]\x7b2,\x7d` pass collapses them). -/
theorem C4_counterexample :
    clean_wikitext "x \x7b\x7ba|\x7b\x7bb|c\x7d\x7d|d\x7d\x7d y".data ≠
      "x  y".data := by decide

/-- `pyStrip` is idempotent. -/
theorem pyStrip_idem (l : Chars) : pyStrip (pyStrip l) = pyStrip l := by
  have h1 : ∀ m : Chars,
      List.dropWhile pyIsSpace
          (List.rdropWhile pyIsSpace (List.dropWhile pyIsSpace m)) =
        List.rdropWhile pyIsSpace (List.dropWhile pyIsSpace m) := by
    intro m
    rw [List.dropWhile_eq_self_iff]
    intro hl
    obtain ⟨t, ht⟩ :=
      List.rdropWhile_prefix pyIsSpace (List.dropWhile pyIsSpace m)
    have hm : 0 < (List.dropWhile pyIsSpace m).length := by
      rw [← ht]
      simp only [List.length_append]
      omega
    have key := List.dropWhile_get_zero_not pyIsSpace m hm
    simp only [List.get_eq_getElem] at key ⊢
    have hm2 : 0 < (List.rdropWhile pyIsSpace (List.dropWhile pyIsSpace m)
        ++ t).length := by rw [ht]; exact hm
    have e1 : (List.dropWhile pyIsSpace m)[0] =
        (List.rdropWhile pyIsSpace (List.dropWhile pyIsSpace m) ++ t)[0] :=
      List.getElem_of_eq ht.symm hm
    have e2 : (List.rdropWhile pyIsSpace (List.dropWhile pyIsSpace m) ++
        t)[0] =
        (List.rdropWhile pyIsSpace (List.dropWhile pyIsSpace m))[0] :=
      List.getElem_append_left hl
    rw [e1, e2] at key
    exact key
  show List.rdropWhile pyIsSpace (List.dropWhile pyIsSpace
    (List.rdropWhile pyIsSpace (List.dropWhile pyIsSpace l))) = _
  rw [h1, List.rdropWhile_idempotent]
  rfl

/-- Every entry of a Python-dict insertion is the new pair or an old
entry. -/
theorem dictInsert_mem (k v : Chars) (fields : List (Chars × Chars))
    (x : Chars × Chars) (hx : x ∈ dictInsert k v fields) :
    x = (k, v) ∨ x ∈ fields := by
  unfold dictInsert at hx
  split at hx
  · obtain ⟨p, hp, hpe⟩ := List.mem_map.mp hx
    by_cases hk : p.1 = k
    · left; rw [← hpe]; simp [hk]
    · right; rw [← hpe]; simpa [hk] using hp
  · rcases List.mem_append.mp hx with h | h
    · right; exact h
    · left; simpa using h

/-- Invariant of `fieldsOfParts`: every stored key is nonempty and
stripped, every stored value stripped. -/
theorem fieldsOfParts_good : ∀ (parts : List Chars) (fields : List (Chars × Chars)),
    (∀ kv ∈ fields, kv.1 ≠ [] ∧ pyStrip kv.1 = kv.1 ∧ pyStrip kv.2 = kv.2) →
    ∀ kv ∈ fieldsOfParts parts fields,
      kv.1 ≠ [] ∧ pyStrip kv.1 = kv.1 ∧ pyStrip kv.2 = kv.2 := by
  intro parts
  induction parts with
  | nil => intro fields h kv hm; exact h kv hm
  | cons part rest ih =>
    intro fields h kv hm
    simp only [fieldsOfParts] at hm
    split at hm
    · split at hm
      · exact ih fields h kv hm
      · rename_i hcont hkey
        refine ih _ ?_ kv hm
        intro kv2 hkv2
        rcases dictInsert_mem _ _ _ _ hkv2 with rfl | hold
        · exact ⟨hkey, pyStrip_idem _, pyStrip_idem _⟩
        · exact h kv2 hold
    · exact ih fields h kv hm

/-- Helper: membership in the guarded `fieldsOfParts` call of
`parse_infobox_fields`. -/
theorem mem_fields_ite {c : Prop} [Decidable c] (parts : List Chars)
    (kv : Chars × Chars)
    (hm : kv ∈ if c then fieldsOfParts parts [] else []) :
    kv.1 ≠ [] ∧ pyStrip kv.1 = kv.1 ∧ pyStrip kv.2 = kv.2 := by
  split at hm
  · exact fieldsOfParts_good parts [] (by simp) kv hm
  · exact absurd hm (by simp)

/-- C6 (amended): `parse_infobox_fields` stores keys trimmed with case
preserved and values as raw trimmed wikitext (cleaning and key
lowercasing happen later, at field lookup); parameters lacking `=` are
discarded; the concrete example parses to
name → Foo, genre → Rock, origin → USA. -/
theorem C6_infobox_fields :
    (∀ (s : Chars) (kv : Chars × Chars), kv ∈ parse_infobox_fields s →
      kv.1 ≠ [] ∧ pyStrip kv.1 = kv.1 ∧ pyStrip kv.2 = kv.2) ∧
    extract_infobox_block "\x7b\x7bInfobox band|name=Foo|genre=Rock|origin=USA\x7d\x7d".data =
      some "\x7b\x7bInfobox band|name=Foo|genre=Rock|origin=USA\x7d\x7d".data ∧
    parse_infobox_fields "\x7b\x7bInfobox band|name=Foo|genre=Rock|origin=USA\x7d\x7d".data =
      [("name".data, "Foo".data), ("genre".data, "Rock".data),
        ("origin".data, "USA".data)] ∧
    parse_infobox_fields "\x7b\x7bInfobox x|flag|a=1\x7d\x7d".data =
      [("a".data, "1".data)] := by
  refine ⟨fun s kv hm => ?_, by decide, by decide, by decide⟩
  simp only [parse_infobox_fields] at hm
  split at hm
  · exact absurd hm (by simp)
  · exact mem_fields_ite _ kv hm

/-- Counterexample for C6 as stated: the stored key keeps its case
("Name", not the lowercase-trimmed "name") and the stored value is the
raw wikitext, not its cleaned form. -/
theorem C6_counterexample :
    parse_infobox_fields "\x7b\x7bInfobox band|Name=[[Foo]]\x7d\x7d".data =
      [("Name".data, "[[Foo]]".data)] ∧
    lowerL (pyStrip "Name".data) ≠ "Name".data ∧
    clean_wikitext "[[Foo]]".data ≠ "[[Foo]]".data :=
  ⟨by decide, by decide, by decide⟩

/-- Witness for C6: the invariant instantiated on the example's first
field. -/
theorem C6_infobox_fields_witness :
    ("name".data : Chars) ≠ [] ∧ pyStrip "name".data = "name".data ∧
      pyStrip "Foo".data = "Foo".data :=
  C6_infobox_fields.1
    "\x7b\x7bInfobox band|name=Foo|genre=Rock|origin=USA\x7d\x7d".data
    ("name".data, "Foo".data) (by decide)

/-- The suffix returned by the inner list-template scan never grows. -/
theorem inlineScanGo_snd_le : ∀ fuel d acc r,
    ((inlineScanGo fuel d acc r).2).length ≤ r.length := by
  intro fuel
  induction fuel with
  | zero => intro d acc r; simp [inlineScanGo]
  | succ f ih =>
    intro d acc r
    match r with
    | [] => simp [inlineScanGo]
    | [c] => simp [inlineScanGo]
    | a :: b :: rest =>
      by_cases h1 : a = '\x7b' ∧ b = '\x7b'
      · obtain ⟨rfl, rfl⟩ := h1
        rw [inlineScanGo]
        exact le_trans (ih _ _ _) (by simp only [List.length_cons]; omega)
      · by_cases h2 : a = '\x7d' ∧ b = '\x7d'
        · obtain ⟨rfl, rfl⟩ := h2
          rw [inlineScanGo]
          split
          · simp only [List.length_cons]
            omega
          · exact le_trans (ih _ _ _) (by simp only [List.length_cons]; omega)
        · have hstep : inlineScanGo (f + 1) d acc (a :: b :: rest) =
              inlineScanGo f d (acc ++ [a]) (b :: rest) := by
            rw [inlineScanGo.eq_def]; split <;> simp_all
          rw [hstep]
          exact le_trans (ih _ _ _) (by simp only [List.length_cons]; omega)

/-- The table-removal loop machine finishes within `length + 1`
iterations. -/
theorem tablesLoop_total : ∀ fuel d r acc, r.length < fuel →
    ∃ out, tablesLoop fuel d r acc = some out := by
  intro fuel
  induction fuel with
  | zero => intro d r acc h; omega
  | succ f ih =>
    intro d r acc hlen
    match d, r with
    | 0, [] => exact ⟨acc, by rw [tablesLoop]⟩
    | 0, [a] =>
      have hstep : tablesLoop (f + 1) 0 [a] acc = tablesLoop f 0 [] (acc ++ [a]) := by
        rw [tablesLoop.eq_def]; split <;> simp_all
      rw [hstep]
      exact ih _ _ _ (by simp at hlen ⊢; omega)
    | 0, a :: b :: rest =>
      by_cases h1 : a = '\x7b' ∧ b = '|'
      · obtain ⟨rfl, rfl⟩ := h1
        rw [tablesLoop]
        exact ih _ _ _ (by simp at hlen ⊢; omega)
      · have hstep : tablesLoop (f + 1) 0 (a :: b :: rest) acc =
            tablesLoop f 0 (b :: rest) (acc ++ [a]) := by
          rw [tablesLoop.eq_def]; split <;> simp_all
        rw [hstep]
        exact ih _ _ _ (by simp at hlen ⊢; omega)
    | d + 1, [] => exact ⟨acc, by rw [tablesLoop]⟩
    | d + 1, [a] => exact ⟨acc ++ [a], by rw [tablesLoop]⟩
    | d + 1, a :: b :: rest =>
      by_cases h1 : a = '\x7b' ∧ b = '|'
      · obtain ⟨rfl, rfl⟩ := h1
        rw [tablesLoop]
        exact ih _ _ _ (by simp at hlen ⊢; omega)
      · by_cases h2 : a = '|' ∧ b = '\x7d'
        · obtain ⟨rfl, rfl⟩ := h2
          rw [tablesLoop]
          exact ih _ _ _ (by simp at hlen ⊢; omega)
        · have hstep : tablesLoop (f + 1) (d + 1) (a :: b :: rest) acc =
              tablesLoop f (d + 1) (b :: rest) acc := by
            rw [tablesLoop.eq_def]; split <;> simp_all
          rw [hstep]
          exact ih _ _ _ (by simp at hlen ⊢; omega)

/-- The template-removal loop machine finishes within `length + 1`
iterations. -/
theorem templatesLoop_total : ∀ fuel d r acc, r.length < fuel →
    ∃ out, templatesLoop fuel d r acc = some out := by
  intro fuel
  induction fuel with
  | zero => intro d r acc h; omega
  | succ f ih =>
    intro d r acc hlen
    match d, r with
    | 0, [] => exact ⟨acc, by rw [templatesLoop]⟩
    | 0, [a] =>
      have hstep : templatesLoop (f + 1) 0 [a] acc =
          templatesLoop f 0 [] (acc ++ [a]) := by
        rw [templatesLoop.eq_def]; split <;> simp_all
      rw [hstep]
      exact ih _ _ _ (by simp at hlen ⊢; omega)
    | 0, a :: b :: rest =>
      by_cases h1 : a = '\x7b' ∧ b = '\x7b'
      · obtain ⟨rfl, rfl⟩ := h1
        rw [templatesLoop]
        exact ih _ _ _ (by simp at hlen ⊢; omega)
      · have hstep : templatesLoop (f + 1) 0 (a :: b :: rest) acc =
            templatesLoop f 0 (b :: rest) (acc ++ [a]) := by
          rw [templatesLoop.eq_def]; split <;> simp_all
        rw [hstep]
        exact ih _ _ _ (by simp at hlen ⊢; omega)
    | d + 1, [] => exact ⟨acc, by rw [templatesLoop]⟩
    | d + 1, [a] => exact ⟨acc, by rw [templatesLoop]⟩
    | d + 1, a :: b :: rest =>
      by_cases h1 : a = '\x7b' ∧ b = '\x7b'
      · obtain ⟨rfl, rfl⟩ := h1
        rw [templatesLoop]
        exact ih _ _ _ (by simp at hlen ⊢; omega)
      · by_cases h2 : a = '\x7d' ∧ b = '\x7d'
        · obtain ⟨rfl, rfl⟩ := h2
          rw [templatesLoop]
          exact ih _ _ _ (by simp at hlen ⊢; omega)
        · have hstep : templatesLoop (f + 1) (d + 1) (a :: b :: rest) acc =
              templatesLoop f (d + 1) (b :: rest) acc := by
            rw [templatesLoop.eq_def]; split <;> simp_all
          rw [hstep]
          exact ih _ _ _ (by simp at hlen ⊢; omega)

/-- The inner list-template scan machine finishes within `length + 1`
iterations. -/
theorem inlineLoop_total : ∀ fuel d acc r, r.length < fuel →
    ∃ out, inlineLoop fuel d acc r = some out := by
  intro fuel
  induction fuel with
  | zero => intro d acc r h; omega
  | succ f ih =>
    intro d acc r hlen
    match r with
    | [] => exact ⟨(none, []), by rw [inlineLoop]⟩
    | [c] => exact ⟨(none, [c]), by rw [inlineLoop]⟩
    | a :: b :: rest =>
      by_cases h1 : a = '\x7b' ∧ b = '\x7b'
      · obtain ⟨rfl, rfl⟩ := h1
        rw [inlineLoop]
        exact ih _ _ _ (by simp at hlen ⊢; omega)
      · by_cases h2 : a = '\x7d' ∧ b = '\x7d'
        · obtain ⟨rfl, rfl⟩ := h2
          rw [inlineLoop]
          split
          · exact ⟨_, rfl⟩
          · exact ih _ _ _ (by simp at hlen ⊢; omega)
        · have hstep : inlineLoop (f + 1) d acc (a :: b :: rest) =
              inlineLoop f d (acc ++ [a]) (b :: rest) := by
            rw [inlineLoop.eq_def]; split <;> simp_all
          rw [hstep]
          exact ih _ _ _ (by simp at hlen ⊢; omega)

/-- The infobox block scan machine finishes within `length + 1`
iterations. -/
theorem infoboxLoop_total : ∀ fuel depth n r, r.length < fuel →
    ∃ out, infoboxLoop fuel depth n r = some out := by
  intro fuel
  induction fuel with
  | zero => intro depth n r h; omega
  | succ f ih =>
    intro depth n r hlen
    match r with
    | [] => exact ⟨none, by rw [infoboxLoop]⟩
    | [c] => exact ⟨none, by rw [infoboxLoop]⟩
    | a :: b :: rest =>
      by_cases h1 : a = '\x7b' ∧ b = '\x7b'
      · obtain ⟨rfl, rfl⟩ := h1
        rw [infoboxLoop]
        exact ih _ _ _ (by simp at hlen ⊢; omega)
      · by_cases h2 : a = '\x7d' ∧ b = '\x7d'
        · obtain ⟨rfl, rfl⟩ := h2
          rw [infoboxLoop]
          split
          · exact ⟨_, rfl⟩
          · exact ih _ _ _ (by simp at hlen ⊢; omega)
        · have hstep : infoboxLoop (f + 1) depth n (a :: b :: rest) =
              infoboxLoop f depth (n + 1) (b :: rest) := by
            rw [infoboxLoop.eq_def]; split <;> simp_all
          rw [hstep]
          exact ih _ _ _ (by simp at hlen ⊢; omega)

/-- The outer list-template inlining loop machine finishes within
`length + 1` iterations. -/
theorem listLoop_total : ∀ fuel r acc, r.length < fuel →
    ∃ out, listLoop fuel r acc = some out := by
  intro fuel
  induction fuel with
  | zero => intro r acc h; omega
  | succ f ih =>
    intro r acc hlen
    match r with
    | [] => exact ⟨acc, by rw [listLoop]⟩
    | [a] =>
      have hstep : listLoop (f + 1) [a] acc = listLoop f [] (acc ++ [a]) := by
        rw [listLoop.eq_def]; split <;> simp_all
      rw [hstep]
      exact ih _ _ (by simp at hlen ⊢; omega)
    | a :: b :: rest =>
      by_cases h1 : a = '\x7b' ∧ b = '\x7b'
      · obtain ⟨rfl, rfl⟩ := h1
        simp only [listLoop, List.length_cons] at hlen ⊢
        have hd : (List.drop (List.takeWhile
            (fun c => c ≠ '|' && c ≠ '\x7d' && c ≠ '\n') rest).length
            rest).length ≤ rest.length := by
          simp [List.length_drop]
        split
        · split
          · rename_i rest2 heqAfter
            rw [heqAfter] at hd
            simp only [List.length_cons] at hd
            split
            · rename_i content restAfter heqScan
              refine ih _ _ ?_
              have hle : restAfter.length ≤ rest2.length := by
                have := inlineScanGo_snd_le (rest2.length + 1) 1 [] rest2
                rw [heqScan] at this
                exact this
              omega
            · rename_i tail heqScan
              refine ih _ _ ?_
              have hle : tail.length ≤ rest2.length := by
                have := inlineScanGo_snd_le (rest2.length + 1) 1 [] rest2
                rw [heqScan] at this
                exact this
              omega
          · refine ih _ _ ?_
            omega
        · refine ih _ _ ?_
          omega
      · have hstep : listLoop (f + 1) (a :: b :: rest) acc =
            listLoop f (b :: rest) (acc ++ [a]) := by
          rw [listLoop.eq_def]; split <;> simp_all
        rw [hstep]
        exact ih _ _ (by simp at hlen ⊢; omega)

/-- C9: every depth-counted scan — table removal, list-template content
inlining (outer loop and inner balanced-content scan), remaining-template
removal, and infobox block extraction — is an index-advancing loop that
completes within `input length + 1` iterations on every input,
including unbalanced markup: each machine spends one unit of fuel per
loop iteration and never exhausts `length + 1` units. -/
theorem C9_depth_scans_terminate :
    (∀ l : Chars, ∃ out, tablesLoop (l.length + 1) 0 l [] = some out) ∧
    (∀ l : Chars, ∃ out, listLoop (l.length + 1) l [] = some out) ∧
    (∀ (l : Chars) (d : Nat), ∃ out, inlineLoop (l.length + 1) d [] l = some out) ∧
    (∀ l : Chars, ∃ out, templatesLoop (l.length + 1) 0 l [] = some out) ∧
    (∀ (l : Chars) (dep : Int), ∃ out, infoboxLoop (l.length + 1) dep 0 l = some out) :=
  ⟨fun l => tablesLoop_total (l.length + 1) 0 l [] (by omega),
   fun l => listLoop_total (l.length + 1) l [] (by omega),
   fun l d => inlineLoop_total (l.length + 1) d [] l (by omega),
   fun l => templatesLoop_total (l.length + 1) 0 l [] (by omega),
   fun l dep => infoboxLoop_total (l.length + 1) dep 0 l (by omega)⟩

/-- The inner end-bound loop of `find_section_block` computes the start
of the first later match of level at most `level`, defaulting to the
document length. -/
theorem findEndBound_eq (level dflt : Nat) : ∀ rest : List SecMatch,
    findEndBound level dflt rest =
      (match rest.find? (fun m2 => m2.level ≤ level) with
       | some m2 => m2.start
       | none => dflt) := by
  intro rest
  induction rest with
  | nil => rfl
  | cons m2 rest ih =>
    rw [findEndBound, List.find?]
    by_cases h : m2.level ≤ level
    · simp [h]
    · simp only [h, if_false, decide_eq_true_eq]
      rw [ih]
      simp [h]

/-- The scan loop of `find_section_block` agrees with the declarative
first-match / next-lower-level formulation. -/
theorem findSecLoop_eq_spec (wt target : Chars) : ∀ ms : List SecMatch,
    findSecLoop wt target ms =
      (match ms.findIdx? (fun m => cleanSecTitle m.title = target) with
       | none => none
       | some i =>
         match ms[i]? with
         | none => none
         | some m =>
           some (pyStrip (slice wt m.stop
             (match (ms.drop (i + 1)).find? (fun m2 => m2.level ≤ m.level) with
              | some m2 => m2.start
              | none => wt.length)))) := by
  intro ms
  induction ms with
  | nil => rfl
  | cons m rest ih =>
    rw [findSecLoop]
    by_cases h : cleanSecTitle m.title = target
    · rw [if_pos h]
      have hidx : (m :: rest).findIdx?
          (fun x => decide (cleanSecTitle x.title = target)) = some 0 := by
        simp [List.findIdx?_cons, h]
      rw [hidx]
      simp only [List.getElem?_cons_zero, List.drop_succ_cons, List.drop_zero]
      rw [findEndBound_eq]
    · rw [if_neg h]
      rw [ih]
      cases hfi : rest.findIdx? (fun x => decide (cleanSecTitle x.title = target)) with
      | none => simp [List.findIdx?_cons, h, hfi]
      | some i =>
        have : (m :: rest).findIdx?
            (fun x => decide (cleanSecTitle x.title = target)) = some (i + 1) := by
          simp [List.findIdx?_cons, h, hfi]
        rw [this]
        simp only [List.getElem?_cons_succ, List.drop_succ_cons]

/-- C2 (amended): `findSection` returns the trimmed body of the first
`SECTION_RE`-matched heading (scanned on the `normalize_headings`
output) whose cleaned title equals the name, extending to the start of
the next match of level less than or equal to the matched level, or to
the end of the document.  Because `normalize_headings` splits the
opening `=` run of a level-3 heading that follows a newline (its
lookbehind only inspects one character), the concrete input yields
"text1\n=": the mangled `===B===` re-parses as a level-2 heading that
terminates section A. -/
theorem C2_find_section :
    (∀ wikitext section_name : Chars,
      find_section_block wikitext section_name =
        findSectionSpec wikitext section_name) ∧
    find_section_block "==A==\ntext1\n===B===\ntext2\n==C==\ntext3".data "A".data =
      some "text1\n=".data := by
  constructor
  · intro wt name
    simp only [find_section_block, findSectionSpec]
    cases hms : sectionMatches (normalize_headings wt) with
    | nil => rfl
    | cons m rest =>
      simpa using findSecLoop_eq_spec (normalize_headings wt)
        (lowerL (pyStrip name)) (m :: rest)
  · decide

/-- Counterexample for C2 as stated: on the claim's input, section "A"
does not extend over the level-3 subsection; the heading fixer corrupts
`===B===`, so the returned body is "text1\n=", not
"text1\n===B===\ntext2". -/
theorem C2_counterexample :
    find_section_block "==A==\ntext1\n===B===\ntext2\n==C==\ntext3".data "A".data ≠
      some "text1\n===B===\ntext2".data := by decide

/-! ### The cleaner is the identity on plain text (towards C5) -/

/-- A plain character differs from every special character. -/
theorem plain_ne {c : Char} (h : plainChar c = true) {x : Char}
    (hx : specialChar x = true) : c ≠ x := by
  intro heq
  subst heq
  simp only [plainChar, Bool.and_eq_true, Bool.not_eq_true'] at h
  rw [h.1.1] at hx
  exact absurd hx (by simp)

/-- Case folding a plain character also avoids the special characters. -/
theorem plain_toLower_ne {c : Char} (h : plainChar c = true) {x : Char}
    (hx : specialChar x = true) : c.toLower ≠ x := by
  intro he
  simp only [plainChar, Bool.and_eq_true, Bool.not_eq_true'] at h
  rw [← he, h.1.2] at hx
  exact absurd hx (by simp)

theorem plain_ws {c : Char} (h : plainChar c = true) :
    c = ' ' ∨ pyIsSpace c = false := by
  simp only [plainChar, Bool.and_eq_true, Bool.or_eq_true, Bool.not_eq_true',
    decide_eq_true_eq] at h
  exact h.2

/-- A plain character is no whitespace character other than a space. -/
theorem plain_ne_ws {c : Char} (h : plainChar c = true) {x : Char}
    (hx : pyIsSpace x = true) (hx2 : x ≠ ' ') : c ≠ x := by
  intro heq
  subst heq
  rcases plain_ws h with heq | hw
  · exact hx2 heq
  · rw [hx] at hw; exact absurd hw (by simp)

theorem takeWhile_all {p : Char → Bool} : ∀ l : Chars,
    (∀ c ∈ l, p c = true) → l.takeWhile p = l := by
  intro l
  induction l with
  | nil => intro _; rfl
  | cons c rest ih =>
    intro h
    rw [List.takeWhile_cons, h c (by simp)]
    simp [ih (fun x hx => h x (by simp [hx]))]

/-- `htmlUnescape` is the identity without `&`. -/
theorem htmlUnescapeGo_id : ∀ fuel l, l.length < fuel →
    (∀ c ∈ l, plainChar c = true) → htmlUnescapeGo fuel l = l := by
  intro fuel
  induction fuel with
  | zero => intro l h _; omega
  | succ f ih =>
    intro l hlen hall
    match l with
    | [] => rw [htmlUnescapeGo]
    | c :: rest =>
      have hc : c ≠ '&' := plain_ne (hall c (by simp)) (by decide)
      have hstep : htmlUnescapeGo (f + 1) (c :: rest) =
          c :: htmlUnescapeGo f rest := by
        rw [htmlUnescapeGo.eq_def]; split <;> simp_all
      rw [hstep, ih rest (by simp at hlen ⊢; omega)
        (fun x hx => hall x (by simp [hx]))]

theorem htmlUnescape_id (l : Chars) (hall : ∀ c ∈ l, plainChar c = true) :
    htmlUnescape l = l :=
  htmlUnescapeGo_id (l.length + 1) l (by omega) hall

/-- The heading pattern cannot match inside plain text (it needs `=`). -/
theorem matchCore_none (r : Chars) (hall : ∀ c ∈ r, plainChar c = true) :
    matchCore r = none := by
  have hzero : eqRunLen r = 0 := by
    match r with
    | [] => rfl
    | c :: rest =>
      have hc : c ≠ '=' := plain_ne (hall c (by simp)) (by decide)
      simp [eqRunLen, List.takeWhile_cons, hc]
  simp [matchCore, hzero]

/-- The heading-to-plain pass is the identity on plain text. -/
theorem headingsToPlainGo_id : ∀ fuel (b : Bool) l, l.length < fuel →
    (∀ c ∈ l, plainChar c = true) → headingsToPlainGo fuel b l = l := by
  intro fuel
  induction fuel with
  | zero => intro b l h _; omega
  | succ f ih =>
    intro b l hlen hall
    match l with
    | [] => rw [headingsToPlainGo]
    | c :: rest =>
      have hmc : matchCore (c :: rest) = none := matchCore_none _ hall
      have hnl : c ≠ '\n' := plain_ne_ws (hall c (by simp)) (by decide) (by decide)
      rw [headingsToPlainGo]
      cases b <;> simp only [hmc, Bool.false_eq_true, if_false, if_true, reduceIte]
      · rw [if_neg hnl]
        rw [ih false rest (by simp at hlen ⊢; omega)
          (fun x hx => hall x (by simp [hx]))]
      · rw [if_neg hnl]
        rw [ih false rest (by simp at hlen ⊢; omega)
          (fun x hx => hall x (by simp [hx]))]

theorem headingsToPlain_id (l : Chars) (hall : ∀ c ∈ l, plainChar c = true) :
    headingsToPlain l = l :=
  headingsToPlainGo_id (l.length + 1) true l (by omega) hall

theorem ciIsPrefix_cons_ne (p0 : Char) (pt : Chars) (c : Char) (rest : Chars)
    (hc : c.toLower ≠ p0) : ciIsPrefix (p0 :: pt) (c :: rest) = false := by
  simp [ciIsPrefix, lowerL, hc]

theorem isPrefixOf_cons_ne (p0 : Char) (pt : Chars) (c : Char) (rest : Chars)
    (hc : c ≠ p0) : (p0 :: pt).isPrefixOf (c :: rest) = false := by
  simp [List.isPrefixOf, hc, Ne.symm hc]

/-- The `<ref>…</ref>` pass is the identity on plain text. -/
theorem removeRefsGo_id : ∀ fuel l, l.length < fuel →
    (∀ c ∈ l, plainChar c = true) → removeRefsGo fuel l = l := by
  intro fuel
  induction fuel with
  | zero => intro l h _; omega
  | succ f ih =>
    intro l hlen hall
    match l with
    | [] => rw [removeRefsGo]
    | c :: rest =>
      have hci : ciIsPrefix "<ref".data (c :: rest) = false :=
        ciIsPrefix_cons_ne '<' "ref".data c rest
          (plain_toLower_ne (hall c (by simp)) (by decide))
      rw [removeRefsGo]
      simp only [hci, Bool.false_eq_true, if_false]
      rw [ih rest (by simp at hlen ⊢; omega) (fun x hx => hall x (by simp [hx]))]

theorem removeRefs_id (l : Chars) (hall : ∀ c ∈ l, plainChar c = true) :
    removeRefs l = l :=
  removeRefsGo_id (l.length + 1) l (by omega) hall

/-- The self-closing `<ref …/>` pass is the identity on plain text. -/
theorem removeSelfRefsGo_id : ∀ fuel l, l.length < fuel →
    (∀ c ∈ l, plainChar c = true) → removeSelfRefsGo fuel l = l := by
  intro fuel
  induction fuel with
  | zero => intro l h _; omega
  | succ f ih =>
    intro l hlen hall
    match l with
    | [] => rw [removeSelfRefsGo]
    | c :: rest =>
      have hci : ciIsPrefix "<ref".data (c :: rest) = false :=
        ciIsPrefix_cons_ne '<' "ref".data c rest
          (plain_toLower_ne (hall c (by simp)) (by decide))
      rw [removeSelfRefsGo]
      simp only [hci, Bool.false_eq_true, if_false]
      rw [ih rest (by simp at hlen ⊢; omega) (fun x hx => hall x (by simp [hx]))]

theorem removeSelfRefs_id (l : Chars) (hall : ∀ c ∈ l, plainChar c = true) :
    removeSelfRefs l = l :=
  removeSelfRefsGo_id (l.length + 1) l (by omega) hall

/-- The comment pass is the identity on plain text. -/
theorem removeCommentsGo_id : ∀ fuel l, l.length < fuel →
    (∀ c ∈ l, plainChar c = true) → removeCommentsGo fuel l = l := by
  intro fuel
  induction fuel with
  | zero => intro l h _; omega
  | succ f ih =>
    intro l hlen hall
    match l with
    | [] => rw [removeCommentsGo]
    | c :: rest =>
      have hpre : "<!--".data.isPrefixOf (c :: rest) = false :=
        isPrefixOf_cons_ne '<' "!--".data c rest
          (plain_ne (hall c (by simp)) (by decide))
      rw [removeCommentsGo]
      simp only [hpre, Bool.false_eq_true, if_false]
      rw [ih rest (by simp at hlen ⊢; omega) (fun x hx => hall x (by simp [hx]))]

theorem removeComments_id (l : Chars) (hall : ∀ c ∈ l, plainChar c = true) :
    removeComments l = l :=
  removeCommentsGo_id (l.length + 1) l (by omega) hall

/-- The table pass is the identity on plain text. -/
theorem removeTablesGo_id : ∀ fuel l, l.length < fuel →
    (∀ c ∈ l, plainChar c = true) → removeTablesGo fuel l = l := by
  intro fuel
  induction fuel with
  | zero => intro l h _; omega
  | succ f ih =>
    intro l hlen hall
    match l with
    | [] => rw [removeTablesGo]
    | c :: rest =>
      have hc : c ≠ '\x7b' := plain_ne (hall c (by simp)) (by decide)
      have hstep : removeTablesGo (f + 1) (c :: rest) =
          c :: removeTablesGo f rest := by
        rw [removeTablesGo.eq_def]; split <;> simp_all
      rw [hstep, ih rest (by simp at hlen ⊢; omega)
        (fun x hx => hall x (by simp [hx]))]

theorem remove_tables_id (l : Chars) (hall : ∀ c ∈ l, plainChar c = true) :
    remove_tables l = l :=
  removeTablesGo_id (l.length + 1) l (by omega) hall

/-- The file/image link pass is the identity on plain text. -/
theorem removeFileLinksGo_id : ∀ fuel l, l.length < fuel →
    (∀ c ∈ l, plainChar c = true) → removeFileLinksGo fuel l = l := by
  intro fuel
  induction fuel with
  | zero => intro l h _; omega
  | succ f ih =>
    intro l hlen hall
    match l with
    | [] => rw [removeFileLinksGo]
    | c :: rest =>
      have hlow : c.toLower ≠ '[' :=
        plain_toLower_ne (hall c (by simp)) (by decide)
      have hci1 : ciIsPrefix "[[file:".data (c :: rest) = false :=
        ciIsPrefix_cons_ne '[' "[file:".data c rest hlow
      have hci2 : ciIsPrefix "[[image:".data (c :: rest) = false :=
        ciIsPrefix_cons_ne '[' "[image:".data c rest hlow
      rw [removeFileLinksGo]
      simp only [hci1, hci2, Bool.false_eq_true, if_false, reduceIte]
      rw [ih rest (by simp at hlen ⊢; omega) (fun x hx => hall x (by simp [hx]))]

theorem removeFileLinks_id (l : Chars) (hall : ∀ c ∈ l, plainChar c = true) :
    removeFileLinks l = l :=
  removeFileLinksGo_id (l.length + 1) l (by omega) hall

/-- The link-rewrite pass is the identity on plain text. -/
theorem replaceLinksGo_id : ∀ fuel l, l.length < fuel →
    (∀ c ∈ l, plainChar c = true) → replaceLinksGo fuel l = l := by
  intro fuel
  induction fuel with
  | zero => intro l h _; omega
  | succ f ih =>
    intro l hlen hall
    match l with
    | [] => rw [replaceLinksGo]
    | c :: rest =>
      have hpre : "[[".data.isPrefixOf (c :: rest) = false :=
        isPrefixOf_cons_ne '[' "[".data c rest
          (plain_ne (hall c (by simp)) (by decide))
      rw [replaceLinksGo]
      simp only [hpre, Bool.false_eq_true, if_false]
      rw [ih rest (by simp at hlen ⊢; omega) (fun x hx => hall x (by simp [hx]))]

theorem replaceLinks_id (l : Chars) (hall : ∀ c ∈ l, plainChar c = true) :
    replaceLinks l = l :=
  replaceLinksGo_id (l.length + 1) l (by omega) hall

/-- The list-template inlining pass is the identity on plain text. -/
theorem extractListContentGo_id : ∀ fuel l, l.length < fuel →
    (∀ c ∈ l, plainChar c = true) → extractListContentGo fuel l = l := by
  intro fuel
  induction fuel with
  | zero => intro l h _; omega
  | succ f ih =>
    intro l hlen hall
    match l with
    | [] => rw [extractListContentGo]
    | c :: rest =>
      have hc : c ≠ '\x7b' := plain_ne (hall c (by simp)) (by decide)
      have hstep : extractListContentGo (f + 1) (c :: rest) =
          c :: extractListContentGo f rest := by
        rw [extractListContentGo.eq_def]; split <;> simp_all
      rw [hstep, ih rest (by simp at hlen ⊢; omega)
        (fun x hx => hall x (by simp [hx]))]

theorem extract_list_content_id (l : Chars) (hall : ∀ c ∈ l, plainChar c = true) :
    extract_list_content l = l :=
  extractListContentGo_id (l.length + 1) l (by omega) hall

/-- The template pass is the identity on plain text. -/
theorem removeTemplatesGo_id : ∀ fuel l, l.length < fuel →
    (∀ c ∈ l, plainChar c = true) → removeTemplatesGo fuel l = l := by
  intro fuel
  induction fuel with
  | zero => intro l h _; omega
  | succ f ih =>
    intro l hlen hall
    match l with
    | [] => rw [removeTemplatesGo]
    | c :: rest =>
      have hc : c ≠ '\x7b' := plain_ne (hall c (by simp)) (by decide)
      have hstep : removeTemplatesGo (f + 1) (c :: rest) =
          c :: removeTemplatesGo f rest := by
        rw [removeTemplatesGo.eq_def]; split <;> simp_all
      rw [hstep, ih rest (by simp at hlen ⊢; omega)
        (fun x hx => hall x (by simp [hx]))]

theorem remove_templates_id (l : Chars) (hall : ∀ c ∈ l, plainChar c = true) :
    remove_templates l = l :=
  removeTemplatesGo_id (l.length + 1) l (by omega) hall

/-- `str.replace` is the identity when the pattern head never occurs. -/
theorem replaceSubGo_id (p0 : Char) (pt rep : Chars) : ∀ fuel l, l.length < fuel →
    (∀ c ∈ l, c ≠ p0) → replaceSubGo (p0 :: pt) rep fuel l = l := by
  intro fuel
  induction fuel with
  | zero => intro l h _; omega
  | succ f ih =>
    intro l hlen hall
    match l with
    | [] => rw [replaceSubGo]
    | c :: rest =>
      have hpre : (p0 :: pt).isPrefixOf (c :: rest) = false :=
        isPrefixOf_cons_ne p0 pt c rest (hall c (by simp))
      rw [replaceSubGo]
      simp only [hpre, Bool.false_eq_true, if_false]
      rw [ih rest (by simp at hlen ⊢; omega) (fun x hx => hall x (by simp [hx]))]

theorem replaceSub_id (p0 : Char) (pt rep l : Chars)
    (hall : ∀ c ∈ l, c ≠ p0) : replaceSub (p0 :: pt) rep l = l :=
  replaceSubGo_id p0 pt rep (l.length + 1) l (by omega) hall

/-- The HTML-tag pass is the identity on plain text. -/
theorem removeTagsGo_id : ∀ fuel l, l.length < fuel →
    (∀ c ∈ l, plainChar c = true) → removeTagsGo fuel l = l := by
  intro fuel
  induction fuel with
  | zero => intro l h _; omega
  | succ f ih =>
    intro l hlen hall
    match l with
    | [] => rw [removeTagsGo]
    | c :: rest =>
      have hc : c ≠ '<' := plain_ne (hall c (by simp)) (by decide)
      have hstep : removeTagsGo (f + 1) (c :: rest) = c :: removeTagsGo f rest := by
        rw [removeTagsGo.eq_def]; split <;> simp_all
      rw [hstep, ih rest (by simp at hlen ⊢; omega)
        (fun x hx => hall x (by simp [hx]))]

theorem removeTags_id (l : Chars) (hall : ∀ c ∈ l, plainChar c = true) :
    removeTags l = l :=
  removeTagsGo_id (l.length + 1) l (by omega) hall

/-- The newline-collapsing pass is the identity on plain text. -/
theorem collapseNewlinesGo_id : ∀ fuel l, l.length < fuel →
    (∀ c ∈ l, plainChar c = true) → collapseNewlinesGo fuel l = l := by
  intro fuel
  induction fuel with
  | zero => intro l h _; omega
  | succ f ih =>
    intro l hlen hall
    match l with
    | [] => rw [collapseNewlinesGo]
    | c :: rest =>
      have hc : c ≠ '\n' := plain_ne_ws (hall c (by simp)) (by decide) (by decide)
      have hstep : collapseNewlinesGo (f + 1) (c :: rest) =
          c :: collapseNewlinesGo f rest := by
        rw [collapseNewlinesGo.eq_def]; split <;> simp_all
      rw [hstep, ih rest (by simp at hlen ⊢; omega)
        (fun x hx => hall x (by simp [hx]))]

theorem collapseNewlines_id (l : Chars) (hall : ∀ c ∈ l, plainChar c = true) :
    collapseNewlines l = l :=
  collapseNewlinesGo_id (l.length + 1) l (by omega) hall

/-- On plain text, `splitlines` yields the single original line. -/
theorem pySplitlines_single (l : Chars) (hne : l ≠ [])
    (hall : ∀ c ∈ l, plainChar c = true) : pySplitlines l = [l] := by
  match l with
  | c :: rest =>
    show pySplitlinesGo ((c :: rest).length + 1) (c :: rest) = [c :: rest]
    have hline : (c :: rest).takeWhile (fun x => x ≠ '\n' && x ≠ '\r') =
        c :: rest := by
      refine takeWhile_all _ (fun x hx => ?_)
      have h1 : x ≠ '\n' := plain_ne_ws (hall x hx) (by decide) (by decide)
      have h2 : x ≠ '\r' := plain_ne_ws (hall x hx) (by decide) (by decide)
      simp [h1, h2]
    rw [pySplitlinesGo.eq_def]
    split
    all_goals first
      | omega
      | (rw [hline]; simp [List.drop_length])
      | simp_all

/-- `pyStrip` is the identity when the text neither starts nor ends with
whitespace. -/
theorem pyStrip_id (l : Chars) (hall : ∀ c ∈ l, plainChar c = true)
    (hhead : l.head? ≠ some ' ') (hlast : l.getLast? ≠ some ' ') :
    pyStrip l = l := by
  have hL : pyLStrip l = l := by
    match l with
    | [] => rfl
    | c :: rest =>
      have h1 : pyIsSpace c = false := by
        rcases plain_ws (hall c (by simp)) with heq | hw
        · exact absurd (by rw [heq]; rfl) hhead
        · exact hw
      simp [pyLStrip, List.dropWhile_cons, h1]
  rw [pyStrip, hL]
  show List.rdropWhile pyIsSpace l = l
  rw [List.rdropWhile_eq_self_iff]
  intro hne
  have hmem : l.getLast hne ∈ l := List.getLast_mem hne
  rcases plain_ws (hall _ hmem) with heq | hw
  · exact absurd (by rw [List.getLast?_eq_getLast l hne, heq]) hlast
  · simp [hw]

/-- The line strip-and-rejoin pass is the identity on plain text without
leading or trailing space. -/
theorem stripLines_id (l : Chars) (hall : ∀ c ∈ l, plainChar c = true)
    (hhead : l.head? ≠ some ' ') (hlast : l.getLast? ≠ some ' ') :
    stripLines l = l := by
  by_cases hne : l = []
  · subst hne; rfl
  · rw [stripLines, pySplitlines_single l hne hall]
    simp only [List.map_cons, List.map_nil, pyStrip_id l hall hhead hlast]
    simp [List.intercalate]

theorem noDoubleSpace_tail {a : Char} {l : Chars}
    (h : noDoubleSpace (a :: l) = true) : noDoubleSpace l = true := by
  match l with
  | [] => rfl
  | b :: rest =>
    rw [noDoubleSpace] at h
    simp only [Bool.and_eq_true] at h
    exact h.2

/-- The space/tab collapsing pass is the identity on plain text with no
two adjacent spaces. -/
theorem collapseSpacesTabsGo_id : ∀ fuel l, l.length < fuel →
    (∀ c ∈ l, plainChar c = true) → noDoubleSpace l = true →
    collapseSpacesTabsGo fuel l = l := by
  intro fuel
  induction fuel with
  | zero => intro l h _ _; omega
  | succ f ih =>
    intro l hlen hall hnds
    match l with
    | [] => rw [collapseSpacesTabsGo]
    | c :: rest =>
      have htab : c ≠ '\t' := plain_ne_ws (hall c (by simp)) (by decide) (by decide)
      have hrec := ih rest (by simp at hlen ⊢; omega)
        (fun x hx => hall x (by simp [hx])) (noDoubleSpace_tail hnds)
      rw [collapseSpacesTabsGo]
      by_cases hsp : c = ' '
      · subst hsp
        have ht : rest.takeWhile (fun x => x = ' ' || x = '\t') = [] := by
          match rest with
          | [] => rfl
          | c2 :: r2 =>
            have h2 : c2 ≠ ' ' := by
              rw [noDoubleSpace] at hnds
              intro heq
              subst heq
              simp at hnds
            have h3 : c2 ≠ '\t' :=
              plain_ne_ws (hall c2 (by simp)) (by decide) (by decide)
            simp [List.takeWhile_cons, h2, h3]
        simp [ht, hrec]
      · have hcond : (c = ' ' || c = '\t') = false := by simp [hsp, htab]
        simp only [hcond, Bool.false_eq_true, if_false]
        rw [hrec]

theorem collapseSpacesTabs_id (l : Chars) (hall : ∀ c ∈ l, plainChar c = true)
    (hnds : noDoubleSpace l = true) : collapseSpacesTabs l = l :=
  collapseSpacesTabsGo_id (l.length + 1) l (by omega) hall hnds

/-- The bullet pattern cannot match plain text (it needs `*`). -/
theorem bulletTry_none (r : Chars) (hall : ∀ c ∈ r, plainChar c = true) :
    bulletTry r = none := by
  simp only [bulletTry]
  split
  · rename_i rest2 heq
    exfalso
    have hmem : '*' ∈ r := List.drop_subset _ r (by rw [heq]; exact List.mem_cons_self _ _)
    exact plain_ne (hall '*' hmem) (by decide) rfl
  · rfl

/-- The line-start bullet pass is the identity on plain text. -/
theorem lineStartBulletsGo_id : ∀ fuel (b : Bool) l, l.length < fuel →
    (∀ c ∈ l, plainChar c = true) → lineStartBulletsGo fuel b l = l := by
  intro fuel
  induction fuel with
  | zero => intro b l h _; omega
  | succ f ih =>
    intro b l hlen hall
    match l with
    | [] => rw [lineStartBulletsGo]
    | c :: rest =>
      have hb := bulletTry_none (c :: rest) hall
      have hnl : c ≠ '\n' := plain_ne_ws (hall c (by simp)) (by decide) (by decide)
      have hrec := ih false rest (by simp at hlen ⊢; omega)
        (fun x hx => hall x (by simp [hx]))
      rw [lineStartBulletsGo]
      cases b <;> simp only [hb, Bool.false_eq_true, if_false, if_true, reduceIte] <;>
        rw [if_neg hnl, hrec]

theorem lineStartBullets_id (l : Chars) (hall : ∀ c ∈ l, plainChar c = true) :
    lineStartBullets l = l :=
  lineStartBulletsGo_id (l.length + 1) true l (by omega) hall

/-- The inline star pass is the identity on plain text. -/
theorem inlineStarsGo_id : ∀ fuel l, l.length < fuel →
    (∀ c ∈ l, plainChar c = true) → inlineStarsGo fuel l = l := by
  intro fuel
  induction fuel with
  | zero => intro l h _; omega
  | succ f ih =>
    intro l hlen hall
    match l with
    | [] => rw [inlineStarsGo]
    | c :: rest =>
      have hc : c ≠ '*' := plain_ne (hall c (by simp)) (by decide)
      have hstep : inlineStarsGo (f + 1) (c :: rest) = c :: inlineStarsGo f rest := by
        rw [inlineStarsGo.eq_def]; split <;> simp_all
      rw [hstep, ih rest (by simp at hlen ⊢; omega)
        (fun x hx => hall x (by simp [hx]))]

theorem inlineStars_id (l : Chars) (hall : ∀ c ∈ l, plainChar c = true) :
    inlineStars l = l :=
  inlineStarsGo_id (l.length + 1) l (by omega) hall

theorem scopeTry_none (r : Chars) (hall : ∀ c ∈ r, plainChar c = true) :
    scopeTry r = none := by
  match r with
  | [] => rfl
  | c :: rest =>
    have hc : c ≠ '!' := plain_ne (hall c (by simp)) (by decide)
    rw [scopeTry.eq_def]
    split <;> simp_all

theorem attrNumTry_none (name r : Chars) (hall : ∀ c ∈ r, plainChar c = true) :
    attrNumTry name r = none := by
  simp only [attrNumTry]
  split
  · split
    · rename_i rest2 heq
      exfalso
      have h1 : '=' ∈ '=' :: rest2 := List.mem_cons_self _ _
      rw [← heq] at h1
      have hmem : '=' ∈ r := List.drop_subset _ _ (List.drop_subset _ _ h1)
      exact plain_ne (hall '=' hmem) (by decide) rfl
    · rfl
  · rfl

theorem attrQuotedTry_none (name r : Chars) (hall : ∀ c ∈ r, plainChar c = true) :
    attrQuotedTry name r = none := by
  simp only [attrQuotedTry]
  split
  · split
    · rename_i rest2 heq
      exfalso
      have h1 : '=' ∈ '=' :: rest2 := List.mem_cons_self _ _
      rw [← heq] at h1
      have hmem : '=' ∈ r := List.drop_subset _ _ (List.drop_subset _ _ h1)
      exact plain_ne (hall '=' hmem) (by decide) rfl
    · rfl
  · rfl

theorem widthTry_none (r : Chars) (hall : ∀ c ∈ r, plainChar c = true) :
    widthTry r = none := by
  simp only [widthTry]
  split
  · split
    · rename_i rest2 heq
      exfalso
      have h1 : '=' ∈ '=' :: rest2 := List.mem_cons_self _ _
      rw [← heq] at h1
      have hmem : '=' ∈ r := List.drop_subset _ _ (List.drop_subset _ _ h1)
      exact plain_ne (hall '=' hmem) (by decide) rfl
    · rfl
  · rfl

theorem punctTry_none (r : Chars) (hall : ∀ c ∈ r, plainChar c = true) :
    punctTry r = none := by
  unfold punctTry
  split
  · rename_i c rest
    have h1 : c ≠ '!' := plain_ne (hall c (by simp)) (by decide)
    have h2 : c ≠ '+' := plain_ne (hall c (by simp)) (by decide)
    have h3 : c ≠ '-' := plain_ne (hall c (by simp)) (by decide)
    rw [if_neg (by simp [h1, h2, h3])]
  · rfl

theorem pipeTry_none (r : Chars) (hall : ∀ c ∈ r, plainChar c = true) :
    pipeTry r = none := by
  match r with
  | [] => rfl
  | c :: rest =>
    have hc : c ≠ '|' := plain_ne (hall c (by simp)) (by decide)
    rw [pipeTry.eq_def]
    split <;> simp_all

theorem commaTry_none (r : Chars) (hall : ∀ c ∈ r, plainChar c = true) :
    commaTry r = none := by
  match r with
  | [] => rfl
  | c :: rest =>
    have hc : c ≠ ',' := plain_ne (hall c (by simp)) (by decide)
    rw [commaTry.eq_def]
    split <;> simp_all

/-- A substitution pass whose matcher never fires is the identity. -/
theorem subSomeGo_id (tryM : Chars → Option Nat) (rep : Chars)
    (hnone : ∀ r, (∀ c ∈ r, plainChar c = true) → tryM r = none) :
    ∀ fuel l, l.length < fuel → (∀ c ∈ l, plainChar c = true) →
    subSomeGo tryM rep fuel l = l := by
  intro fuel
  induction fuel with
  | zero => intro l h _; omega
  | succ f ih =>
    intro l hlen hall
    match l with
    | [] => rw [subSomeGo]
    | c :: rest =>
      rw [subSomeGo]
      simp only [hnone (c :: rest) hall]
      rw [ih rest (by simp at hlen ⊢; omega) (fun x hx => hall x (by simp [hx]))]

theorem subSome_id (tryM : Chars → Option Nat) (rep : Chars)
    (hnone : ∀ r, (∀ c ∈ r, plainChar c = true) → tryM r = none)
    (l : Chars) (hall : ∀ c ∈ l, plainChar c = true) : subSome tryM rep l = l :=
  subSomeGo_id tryM rep hnone (l.length + 1) l (by omega) hall

/-- The leading-comma pass is the identity on plain text without leading
whitespace. -/
theorem stripLeadingComma_id (l : Chars) (hall : ∀ c ∈ l, plainChar c = true)
    (hhead : l.head? ≠ some ' ') : stripLeadingComma l = l := by
  match l with
  | [] => rfl
  | c :: rest =>
    have h1 : pyIsSpace c = false := by
      rcases plain_ws (hall c (by simp)) with heq | hw2
      · exact absurd (by rw [heq]; rfl) hhead
      · exact hw2
    have hw : wsRunLen (c :: rest) = 0 := by
      simp [wsRunLen, List.takeWhile_cons, h1]
    have hc : c ≠ ',' := plain_ne (hall c (by simp)) (by decide)
    simp only [stripLeadingComma]
    rw [hw, List.drop_zero]
    split <;> simp_all

/-- The trailing-comma pass is the identity on plain text. -/
theorem stripTrailingComma_id : ∀ l : Chars,
    (∀ c ∈ l, plainChar c = true) → stripTrailingComma l = l := by
  intro l
  induction l with
  | nil => intro _; rfl
  | cons c rest ih =>
    intro hall
    have hc : c ≠ ',' := plain_ne (hall c (by simp)) (by decide)
    have hstep : stripTrailingComma (c :: rest) = c :: stripTrailingComma rest := by
      rw [stripTrailingComma.eq_def]; split <;> simp_all
    rw [hstep, ih (fun x hx => hall x (by simp [hx]))]

/-- On plain fixed text (plain characters, no double space, no leading or
trailing space) every pass of the cleaner is the identity, hence so is
`clean_wikitext`. -/
theorem clean_wikitext_fixed (l : Chars) (h : plainFixed l = true) :
    clean_wikitext l = l := by
  simp only [plainFixed, Bool.and_eq_true, List.all_eq_true, Bool.not_eq_true',
    beq_eq_false_iff_ne] at h
  obtain ⟨⟨⟨hall, hnds⟩, hhead⟩, hlast⟩ := h
  by_cases hne : l = []
  · subst hne; rfl
  · have h3 : List.replicate 3 apos = apos :: [apos, apos] := rfl
    have h2 : List.replicate 2 apos = apos :: [apos] := rfl
    have hapos : ∀ c ∈ l, c ≠ apos := fun c hc => plain_ne (hall c hc) (by decide)
    have hlb : ∀ c ∈ l, c ≠ '[' := fun c hc => plain_ne (hall c hc) (by decide)
    have hrb : ∀ c ∈ l, c ≠ ']' := fun c hc => plain_ne (hall c hc) (by decide)
    simp only [clean_wikitext, if_neg hne]
    rw [htmlUnescape_id l hall, headingsToPlain_id l hall, removeRefs_id l hall,
      removeSelfRefs_id l hall, removeComments_id l hall, remove_tables_id l hall,
      removeFileLinks_id l hall, replaceLinks_id l hall,
      extract_list_content_id l hall, remove_templates_id l hall,
      h3, replaceSub_id apos [apos, apos] [] l hapos,
      h2, replaceSub_id apos [apos] [] l hapos,
      removeTags_id l hall, collapseNewlines_id l hall,
      stripLines_id l hall hhead hlast,
      collapseSpacesTabs_id l hall hnds,
      lineStartBullets_id l hall, inlineStars_id l hall,
      subSome_id scopeTry [] scopeTry_none l hall,
      subSome_id (attrNumTry "rowspan".data) []
        (attrNumTry_none "rowspan".data) l hall,
      subSome_id (attrNumTry "colspan".data) []
        (attrNumTry_none "colspan".data) l hall,
      subSome_id (attrQuotedTry "class".data) []
        (attrQuotedTry_none "class".data) l hall,
      subSome_id (attrQuotedTry "style".data) []
        (attrQuotedTry_none "style".data) l hall,
      subSome_id widthTry [] widthTry_none l hall,
      subSome_id punctTry [' '] punctTry_none l hall,
      replaceSub_id '[' ['['] [] l hlb,
      replaceSub_id ']' [']'] [] l hrb,
      subSome_id pipeTry [',', ' '] pipeTry_none l hall,
      subSome_id commaTry [','] commaTry_none l hall,
      stripLeadingComma_id l hall hhead,
      stripTrailingComma_id l hall,
      pyStrip_id l hall hhead hlast]

/-- C5 (corrected): `clean_wikitext` is idempotent on plain fixed text —
text of plain characters (no markup metacharacters, no `!` `+` `-` `,`,
no whitespace other than single interior spaces) with no two adjacent
spaces and no leading or trailing space.  On such text the cleaner is in
fact the identity, and hence idempotent.  Mere absence of markup syntax
is not enough: see the counterexample. -/
theorem C5_clean_idempotent (x : Chars) (h : plainFixed x = true) :
    clean_wikitext x = x ∧
      clean_wikitext (clean_wikitext x) = clean_wikitext x := by
  have hfix := clean_wikitext_fixed x h
  exact ⟨hfix, by rw [hfix]; exact hfix⟩

theorem C5_clean_idempotent_witness :
    plainFixed ("ab cd").data = true ∧
      (clean_wikitext ("ab cd").data = ("ab cd").data ∧
        clean_wikitext (clean_wikitext ("ab cd").data) =
          clean_wikitext ("ab cd").data) :=
  ⟨by decide, C5_clean_idempotent ("ab cd").data (by decide)⟩

/-- C5 counterexample: `"a - b"` contains no markup syntax, yet cleaning
is not idempotent on it — the punctuation pass rewrites `"- "` to a
space, creating a double space that only a second run collapses. -/
theorem C5_counterexample :
    containsNoMarkupSyntax ("a - b").data = true ∧
      clean_wikitext (clean_wikitext ("a - b").data) ≠
        clean_wikitext ("a - b").data :=
  ⟨by decide, by decide⟩

end Extractor
